import Mathlib

/-!
Verification of the N-up imposition core of psutils (`psnup`), embedded from
the C sources `psutil.c`, `psspec.c` and `psnup.c`.

Modelling conventions:
* The input and the output stream are lists of characters (`List Char`); byte
  offsets are `Nat` indices into the input list.
* One `fgets` call reads through the next newline (lines are assumed to be
  shorter than `BUFSIZ` and to contain no NUL bytes, so `strlen` of a line is
  its length and the `BUFSIZ` chunking of reads is invisible).
* C `double` values are modelled as exact fractions (`Frac` below);
  floating-point rounding is not modelled.
* A call to `message(FATAL, ...)` / `die` / `argerror` / `usage` (all of which
  terminate the process) is modelled by `Option.none`.
-/

namespace PSUtils

/-- Byte length of the line starting at the head of `cs`: everything up to and
including the first newline, or all of `cs` if it contains no newline.
This is the number of characters one `fgets` consumes. -/
def lineLen : List Char → Nat
  | [] => 0
  | c :: cs => if c = '\n' then 1 else lineLen cs + 1

/-- `lineEnd d i` is the offset one past the end of the line of `d` starting at
offset `i`: the value of `ftello` after an `fgets` at offset `i`. -/
def lineEnd (d : List Char) (i : Nat) : Nat := i + lineLen (d.drop i)

/-- The bytes of `d` from offset `a` (inclusive) to offset `b` (exclusive). -/
def slice (d : List Char) (a b : Nat) : List Char := (d.drop a).take (b - a)

theorem lineLen_pos {cs : List Char} (h : cs ≠ []) : 0 < lineLen cs := by
  cases cs with
  | nil => exact absurd rfl h
  | cons c cs => unfold lineLen; split <;> omega

theorem lineLen_le (cs : List Char) : lineLen cs ≤ cs.length := by
  induction cs with
  | nil => simp [lineLen]
  | cons c cs ih => unfold lineLen; split <;> simp <;> omega

theorem lt_lineEnd {d : List Char} {i : Nat} (h : i < d.length) : i < lineEnd d i := by
  have : d.drop i ≠ [] := by
    intro hnil
    have := List.drop_eq_nil_iff_le.mp hnil
    omega
  have := lineLen_pos this
  unfold lineEnd; omega

theorem lineEnd_le_length {d : List Char} {i : Nat} (h : i ≤ d.length) :
    lineEnd d i ≤ d.length := by
  have h1 := lineLen_le (d.drop i)
  have h2 : (d.drop i).length = d.length - i := List.length_drop i d
  unfold lineEnd; omega

theorem lineLen_drop (cs : List Char) :
    ∀ k, k < lineLen cs → k + lineLen (cs.drop k) = lineLen cs := by
  induction cs with
  | nil => intro k hk; simp [lineLen] at hk
  | cons c cs ih =>
    intro k hk
    cases k with
    | zero => simp
    | succ k =>
      by_cases hc : c = '\n'
      · simp [lineLen, hc] at hk
      · simp only [lineLen, if_neg hc] at hk ⊢
        have := ih k (by omega)
        simp only [List.drop_succ_cons]
        omega

/-- Offsets inside a line share its end: if `j` lies on the line starting at
`i`, the line starting at `j` ends where the line starting at `i` ends. -/
theorem lineEnd_nest {d : List Char} {i j : Nat} (hij : i ≤ j)
    (hj : j < lineEnd d i) : lineEnd d j = lineEnd d i := by
  unfold lineEnd at *
  have hdrop : d.drop j = (d.drop i).drop (j - i) := by
    rw [List.drop_drop]
    congr 1
    omega
  rw [hdrop]
  have := lineLen_drop (d.drop i) (j - i) (by omega)
  omega

/-- The plain copying loop of `fcopy` (psutil.c) when called with a `NULL`
ignore list: copy the bytes `[pos, upto)` of `d` to the output.  It fails
(`none`) exactly when a read comes up short, i.e. when `d` has fewer than
`upto` bytes and there is something left to copy; the `BUFSIZ` chunking of the
C loop only affects how much is written before a failure, which callers treat
as fatal, so the copy is modelled in one step.  Returns the copied bytes and
the new input position. -/
def fcopy0 (d : List Char) (pos upto : Nat) : Option (List Char × Nat) :=
  if upto ≤ pos then some ([], pos)
  else if upto ≤ d.length then some (slice d pos upto, upto)
  else none

/-- `fcopy` (psutil.c): copy the input from position `pos` up to `upto`,
except that one whole line is read and discarded at each offset of the
0-terminated ascending `ignorelist` that is reached.  The C code's two
skipping loops (`while (*ignorelist > 0 && *ignorelist < here) ignorelist++`)
are realised by the `o < pos` branch, which drops entries lying before the
current position, including entries inside an already discarded line. -/
def fcopy (d : List Char) (upto : Nat) : List Nat → Nat → Option (List Char × Nat)
  | [], pos => fcopy0 d pos upto
  | o :: rest, pos =>
    if o = 0 then fcopy0 d pos upto
    else if o < pos then fcopy d upto rest pos
    else if o < upto then
      match fcopy0 d pos o with
      | none => none
      | some (w, pos1) =>
        if pos1 < d.length then
          match fcopy d upto rest (lineEnd d pos1) with
          | none => none
          | some (w2, p2) => some (w ++ w2, p2)
        else none
    else fcopy0 d pos upto

/-- Whether byte `i` of `d` lies on a line that `fcopy` discards: some ignore
offset `o` within `[pos0, upto)` starts a line containing `i`. -/
def ignored (d : List Char) (pos0 upto : Nat) (igns : List Nat) (i : Nat) : Bool :=
  igns.any fun o => decide (pos0 ≤ o ∧ o < upto ∧ o ≤ i ∧ i < lineEnd d o)

/-- Specification-side description of `fcopy`'s output: the bytes of
`[pos, upto)` with every byte of every ignored line removed. -/
def copySpec (d : List Char) (pos upto : Nat) (igns : List Nat) : List Char :=
  ((List.range' pos (upto - pos)).filter fun i => !(ignored d pos upto igns i)).map
    fun i => d.getD i ' '

theorem slice_eq_map (d : List Char) :
    ∀ n a, a + n ≤ d.length →
      (d.drop a).take n = (List.range' a n).map fun i => d.getD i ' ' := by
  intro n
  induction n with
  | zero => simp
  | succ n ih =>
    intro a ha
    have haa : a < d.length := by omega
    rw [List.drop_eq_getElem_cons haa]
    have h1 : List.range' a (n + 1) = a :: List.range' (a + 1) n := by
      simp [List.range'_succ]
    rw [h1]
    simp only [List.take_succ_cons, List.map_cons]
    rw [ih (a + 1) (by omega)]
    congr 1
    simp [List.getD_eq_getElem?_getD, List.getElem?_eq_getElem haa]

theorem slice_eq_map' (d : List Char) (a b : Nat) (hb : b ≤ d.length) :
    slice d a b = (List.range' a (b - a)).map fun i => d.getD i ' ' := by
  unfold slice
  by_cases hab : a ≤ b
  · exact slice_eq_map d (b - a) a (by omega)
  · have : b - a = 0 := by omega
    simp [this]

theorem copySpec_nil (d : List Char) (pos upto : Nat) (h : upto ≤ d.length) :
    copySpec d pos upto [] = slice d pos upto := by
  unfold copySpec
  rw [slice_eq_map' d pos upto h]
  congr 1
  apply List.filter_eq_self.mpr
  intro i _
  simp [ignored]

theorem copySpec_drop {d : List Char} {pos upto o : Nat} {rest : List Nat}
    (h : o < pos ∨ upto ≤ o) :
    copySpec d pos upto (o :: rest) = copySpec d pos upto rest := by
  unfold copySpec
  congr 1
  apply List.filter_congr
  intro i _
  have : ignored d pos upto (o :: rest) i = ignored d pos upto rest i := by
    unfold ignored
    simp only [List.any_cons]
    have : decide (pos ≤ o ∧ o < upto ∧ o ≤ i ∧ i < lineEnd d o) = false := by
      simp only [decide_eq_false_iff_not]
      intro ⟨h1, h2, _, _⟩
      omega
    rw [this]
    simp
  rw [this]

theorem range'_split (a b c : Nat) (hab : a ≤ b) (hbc : b ≤ c) :
    List.range' a (c - a) = List.range' a (b - a) ++ List.range' b (c - b) := by
  have h := List.range'_append a (b - a) (c - b) 1
  simp only [one_mul] at h
  have hb : a + (b - a) = b := by omega
  rw [hb] at h
  rw [h]
  congr 1
  omega

theorem copySpec_all_ge (d : List Char) (pos upto : Nat) (igns : List Nat)
    (hge : ∀ x ∈ igns, upto ≤ x) (hlen : upto ≤ d.length) :
    copySpec d pos upto igns = slice d pos upto := by
  induction igns with
  | nil => exact copySpec_nil d pos upto hlen
  | cons o rest ih =>
    rw [copySpec_drop (Or.inr (hge o (by simp)))]
    exact ih fun x hx => hge x (by simp [hx])

theorem fcopy0_copySpec (d : List Char) (pos upto : Nat) (igns : List Nat)
    (hlen : upto ≤ d.length) (hge : ∀ x ∈ igns, upto ≤ x) :
    ∃ p', fcopy0 d pos upto = some (copySpec d pos upto igns, p') := by
  rw [copySpec_all_ge d pos upto igns hge hlen]
  unfold fcopy0
  by_cases hp : upto ≤ pos
  · refine ⟨pos, ?_⟩
    rw [if_pos hp]
    have : upto - pos = 0 := by omega
    simp [slice, this]
  · refine ⟨upto, ?_⟩
    rw [if_neg hp, if_pos hlen]

/-- The byte-set form of line discarding: dropping the line starting at the
first ignore offset splits `copySpec` into the copied prefix and the rest. -/
theorem copySpec_cons {d : List Char} {pos upto o : Nat} {rest : List Nat}
    (h1 : pos ≤ o) (h2 : o < upto) (hlen : upto ≤ d.length)
    (hrest : ∀ x ∈ rest, o ≤ x) :
    copySpec d pos upto (o :: rest) =
      slice d pos o ++ copySpec d (lineEnd d o) upto rest := by
  have hoL : o < lineEnd d o := lt_lineEnd (by omega)
  have hLlen : lineEnd d o ≤ d.length := lineEnd_le_length (by omega)
  have part1 : ((List.range' pos (o - pos)).filter
      fun i => !(ignored d pos upto (o :: rest) i)).map (fun i => d.getD i ' ')
      = slice d pos o := by
    rw [slice_eq_map' d pos o (by omega)]
    congr 1
    apply List.filter_eq_self.mpr
    intro i hi
    have hi' : pos ≤ i ∧ i < pos + (o - pos) := List.mem_range'_1.mp hi
    have hfalse : ignored d pos upto (o :: rest) i = false := by
      apply List.any_eq_false.mpr
      intro x hx
      intro hcon
      simp only [decide_eq_true_eq] at hcon
      rcases List.mem_cons.mp hx with hx | hx
      · subst hx
        omega
      · have := hrest x hx
        omega
    simp [hfalse]
  by_cases hcase : upto ≤ lineEnd d o
  · -- the discarded line runs to or past `upto`: nothing after the prefix
    unfold copySpec
    rw [range'_split pos o upto h1 (by omega), List.filter_append, List.map_append, part1]
    have hnil : (List.range' o (upto - o)).filter
        (fun i => !(ignored d pos upto (o :: rest) i)) = [] := by
      apply List.filter_eq_nil.mpr
      intro i hi
      have hi' : o ≤ i ∧ i < o + (upto - o) := List.mem_range'_1.mp hi
      have : ignored d pos upto (o :: rest) i = true := by
        apply List.any_eq_true.mpr
        refine ⟨o, by simp, ?_⟩
        simp only [decide_eq_true_eq]
        exact ⟨h1, h2, by omega, by omega⟩
      simp [this]
    rw [hnil]
    have hz : upto - lineEnd d o = 0 := by omega
    simp [hz]
  · -- the discarded line ends before `upto`
    push_neg at hcase
    unfold copySpec
    rw [range'_split pos o upto h1 (by omega),
        range'_split o (lineEnd d o) upto (by omega) (by omega),
        List.filter_append, List.filter_append, List.map_append, List.map_append, part1]
    have hnil : (List.range' o (lineEnd d o - o)).filter
        (fun i => !(ignored d pos upto (o :: rest) i)) = [] := by
      apply List.filter_eq_nil.mpr
      intro i hi
      have hi' : o ≤ i ∧ i < o + (lineEnd d o - o) := List.mem_range'_1.mp hi
      have : ignored d pos upto (o :: rest) i = true := by
        apply List.any_eq_true.mpr
        refine ⟨o, by simp, ?_⟩
        simp only [decide_eq_true_eq]
        exact ⟨h1, h2, by omega, by omega⟩
      simp [this]
    rw [hnil]
    have hcond : (List.range' (lineEnd d o) (upto - lineEnd d o)).filter
        (fun i => !(ignored d pos upto (o :: rest) i)) =
        (List.range' (lineEnd d o) (upto - lineEnd d o)).filter
        (fun i => !(ignored d (lineEnd d o) upto rest i)) := by
      apply List.filter_congr
      intro i hi
      have hi' : lineEnd d o ≤ i ∧ i < lineEnd d o + (upto - lineEnd d o) :=
        List.mem_range'_1.mp hi
      congr 1
      unfold ignored
      simp only [List.any_cons]
      have hhead : decide (pos ≤ o ∧ o < upto ∧ o ≤ i ∧ i < lineEnd d o) = false := by
        simp only [decide_eq_false_iff_not]
        intro ⟨_, _, _, h4⟩
        omega
      rw [hhead, Bool.false_or]
      apply Bool.eq_iff_iff.mpr
      simp only [List.any_eq_true, decide_eq_true_eq]
      constructor
      · rintro ⟨x, hx, hx1, hx2, hx3, hx4⟩
        refine ⟨x, hx, ?_, hx2, hx3, hx4⟩
        by_cases hxL : x < lineEnd d o
        · have := lineEnd_nest (hrest x hx) hxL
          omega
        · omega
      · rintro ⟨x, hx, hx1, hx2, hx3, hx4⟩
        exact ⟨x, hx, by omega, hx2, hx3, hx4⟩
    rw [hcond]
    simp [copySpec]

theorem fcopy0_mid {d : List Char} {pos o : Nat} (h1 : pos ≤ o) (h2 : o ≤ d.length) :
    fcopy0 d pos o = some (slice d pos o, o) := by
  unfold fcopy0
  by_cases hpo : o ≤ pos
  · have hpe : o = pos := by omega
    rw [if_pos hpo]
    have : o - pos = 0 := by omega
    simp [slice, this, hpe]
  · rw [if_neg hpo, if_pos h2]

/-- `fcopy` realises `copySpec`: reading with a positive, ascending ignore
list from any position copies exactly the in-range bytes outside ignored
lines, provided the input extends to `upto`. -/
theorem fcopy_eq_copySpec (d : List Char) (upto : Nat) (hlen : upto ≤ d.length) :
    ∀ igns : List Nat, igns.Pairwise (· ≤ ·) → (∀ o ∈ igns, o ≠ 0) →
    ∀ pos, ∃ p', fcopy d upto igns pos = some (copySpec d pos upto igns, p') := by
  intro igns
  induction igns with
  | nil =>
    intro _ _ pos
    unfold fcopy
    exact fcopy0_copySpec d pos upto [] hlen (by simp)
  | cons o rest ih =>
    intro hsort h0 pos
    have h0o : o ≠ 0 := h0 o (by simp)
    have hrest0 : ∀ x ∈ rest, x ≠ 0 := fun x hx => h0 x (by simp [hx])
    have hsort' : rest.Pairwise (· ≤ ·) := (List.pairwise_cons.mp hsort).2
    have hrestge : ∀ x ∈ rest, o ≤ x := (List.pairwise_cons.mp hsort).1
    unfold fcopy
    rw [if_neg h0o]
    by_cases hop : o < pos
    · rw [if_pos hop]
      obtain ⟨p', hp'⟩ := ih hsort' hrest0 pos
      exact ⟨p', by rw [hp', copySpec_drop (Or.inl hop)]⟩
    · rw [if_neg hop]
      push_neg at hop
      by_cases hou : o < upto
      · rw [if_pos hou]
        rw [fcopy0_mid hop (by omega)]
        dsimp only
        rw [if_pos (show o < d.length by omega)]
        obtain ⟨p', hp'⟩ := ih hsort' hrest0 (lineEnd d o)
        rw [hp']
        exact ⟨p', by rw [copySpec_cons hop hou hlen hrestge]⟩
      · rw [if_neg hou]
        push_neg at hou
        exact fcopy0_copySpec d pos upto (o :: rest) hlen
          (by intro x hx
              rcases List.mem_cons.mp hx with hx | hx
              · omega
              · have := hrestge x hx; omega)

/-- `fcopy` fails exactly on a short read: if the input ends before `upto`,
every copy attempt from a position inside the input returns failure. -/
theorem fcopy_short (d : List Char) (upto : Nat) (hlen : d.length < upto) :
    ∀ igns : List Nat, (∀ o ∈ igns, o ≠ 0) →
    ∀ pos, pos ≤ d.length → fcopy d upto igns pos = none := by
  intro igns
  induction igns with
  | nil =>
    intro _ pos hpos
    unfold fcopy fcopy0
    rw [if_neg (by omega), if_neg (by omega)]
  | cons o rest ih =>
    intro h0 pos hpos
    have h0o : o ≠ 0 := h0 o (by simp)
    have hrest0 : ∀ x ∈ rest, x ≠ 0 := fun x hx => h0 x (by simp [hx])
    unfold fcopy
    rw [if_neg h0o]
    by_cases hop : o < pos
    · rw [if_pos hop]
      exact ih hrest0 pos hpos
    · rw [if_neg hop]
      push_neg at hop
      by_cases hou : o < upto
      · rw [if_pos hou]
        by_cases holen : o ≤ d.length
        · rw [fcopy0_mid hop holen]
          dsimp only
          by_cases hoe : o < d.length
          · rw [if_pos hoe]
            rw [ih hrest0 (lineEnd d o) (lineEnd_le_length (by omega))]
          · rw [if_neg hoe]
        · have : fcopy0 d pos o = none := by
            unfold fcopy0
            rw [if_neg (by omega), if_neg (by omega)]
          rw [this]
      · rw [if_neg hou]
        unfold fcopy0
        rw [if_neg (by omega), if_neg (by omega)]

/-! ### Numbers: C doubles as exact fractions -/

/-- C `double` values are modelled as exact fractions: a numerator and a
denominator that is kept nonnegative, without normalisation, so that all
arithmetic below is kernel-computable.  Floating-point rounding is not
modelled; every value arising in the verified runs has a positive
denominator. -/
structure Frac where
  num : Int
  den : Int
deriving DecidableEq

def Frac.mk' (n d : Int) : Frac := if d < 0 then ⟨-n, -d⟩ else ⟨n, d⟩

def Frac.ofNat (n : Nat) : Frac := ⟨n, 1⟩

def Frac.add (a b : Frac) : Frac := Frac.mk' (a.num * b.den + b.num * a.den) (a.den * b.den)

def Frac.sub (a b : Frac) : Frac := Frac.mk' (a.num * b.den - b.num * a.den) (a.den * b.den)

def Frac.mul (a b : Frac) : Frac := Frac.mk' (a.num * b.num) (a.den * b.den)

def Frac.div (a b : Frac) : Frac := Frac.mk' (a.num * b.den) (a.den * b.num)

instance : Add Frac := ⟨Frac.add⟩

instance : Sub Frac := ⟨Frac.sub⟩

instance : Mul Frac := ⟨Frac.mul⟩

instance : Div Frac := ⟨Frac.div⟩

instance (n : Nat) : OfNat Frac n := ⟨⟨n, 1⟩⟩

/-- The C comparison `a < b`, valid for fractions with positive denominator. -/
def Frac.blt (a b : Frac) : Bool := decide (a.num * b.den < b.num * a.den)

/-- The C comparison `a == b` (by value), for positive denominators. -/
def Frac.beqv (a b : Frac) : Bool := decide (a.num * b.den = b.num * a.den)

/-- The C `MIN(a, b)` macro: `a < b ? a : b`. -/
def fmin (a b : Frac) : Frac := if Frac.blt a b then a else b

/-- The C `(int)` cast: truncation toward zero. -/
def Frac.trunc (a : Frac) : Int := a.num.tdiv a.den

/-! ### Dimension parsing (psspec.c): parseint, parsedouble, parsedimen,
singledimen -/

/-- `isspace` from ctype.h (C locale). -/
def isspace (c : Char) : Bool :=
  c = ' ' || c = '\t' || c = '\n' || c = '\r' || c = '\x0b' || c = '\x0c'

def natOfDigits (l : List Char) : Nat :=
  l.foldl (fun a c => a * 10 + (c.toNat - 48)) 0

/-- `atof`: leading whitespace, an optional sign, digits, an optional `.` and
fraction digits (exponents do not occur in the program's inputs and are not
modelled).  Unparsable input yields 0, as in C. -/
def atof (s : List Char) : Frac :=
  let s1 := s.dropWhile isspace
  let sign : Bool := s1.head? = some '-'
  let s2 := if s1.head? = some '-' ∨ s1.head? = some '+' then s1.drop 1 else s1
  let ip := s2.takeWhile Char.isDigit
  let s3 := s2.drop ip.length
  let fp := if s3.head? = some '.' then (s3.drop 1).takeWhile Char.isDigit else []
  let n : Nat := natOfDigits ip * 10 ^ fp.length + natOfDigits fp
  ⟨if sign then -(n : Int) else (n : Int), (10 : Int) ^ fp.length⟩

/-- `parseint` (psspec.c): `atol` followed by skipping digits; it is an
argument error (`none`) when no digit is consumed.  Since the skip loop only
accepts digits, the value parsed is the leading digit run. -/
def parseint (s : List Char) : Option (Nat × List Char) :=
  let ds := s.takeWhile Char.isDigit
  if ds.isEmpty then none else some (natOfDigits ds, s.drop ds.length)

/-- `parsedouble` (psspec.c): `atof`, then skip every digit, `-` or `.`
character; it is an argument error (`none`) when **no character at all** is
consumed — a lone `-` or `.` is accepted (with value 0). -/
def parsedouble (s : List Char) : Option (Frac × List Char) :=
  let consumed := s.takeWhile fun c => c.isDigit || c = '-' || c = '.'
  if consumed.isEmpty then none else some (atof s, s.drop consumed.length)

/-- The exact decimal literals used for the cm/mm multipliers in psspec.c. -/
def cmMul : Frac := ⟨28346456692913385211, 10 ^ 18⟩
def mmMul : Frac := ⟨28346456692913385211, 10 ^ 19⟩

/-- `parsedimen` (psspec.c), with the global output `width`/`height` passed
explicitly; `w`/`h` suffixes fail (`die`) when the respective global is
negative (i.e. unset). -/
def parsedimen (w h : Frac) (s : List Char) : Option (Frac × List Char) :=
  match parsedouble s with
  | none => none
  | some (num, s) =>
    if ("pt".toList).isPrefixOf s then some (num, s.drop 2)
    else if ("in".toList).isPrefixOf s then some (num * Frac.ofNat 72, s.drop 2)
    else if ("cm".toList).isPrefixOf s then some (num * cmMul, s.drop 2)
    else if ("mm".toList).isPrefixOf s then some (num * mmMul, s.drop 2)
    else if s.head? = some 'w' then
      (if Frac.blt w 0 then none else some (num * w, s.drop 1))
    else if s.head? = some 'h' then
      (if Frac.blt h 0 then none else some (num * h, s.drop 1))
    else some (num, s)

/-- `singledimen` (psspec.c): a whole argument must be consumed; trailing
characters after the optional unit suffix are a usage error (`none`). -/
def singledimen (w h : Frac) (s : List Char) : Option Frac :=
  match parsedimen w h s with
  | none => none
  | some (num, rest) => if rest.isEmpty then some num else none

/-! ### Placement specs (psspec.h constants, psspec.c newspec, psnup.c
builder loop) -/

/-- Modelled from the spec: the flag constants live in `psspec.h`, which is
not among the provided sources.  §3 of the spec lists the flag set
`SCALE, OFFSET, ROTATE, HFLIP, VFLIP, GSAVE, ADD_NEXT, REVERSED`; the N-up
builder (psnup.c) ors in only `ROTATE`, `SCALE`, `OFFSET` and `ADD_NEXT`,
while the emitter (psspec.c) tests `ps->flags & GSAVE` to guard the whole
transformation block, and the spec requires that block to run for every N-up
spec (§3 "every spec sets SCALE | OFFSET | GSAVE", §4.9).  These constraints
are satisfied by `GSAVE` being the union mask of the five transformation
flags, which is how the flags are modelled here. -/
def ADD_NEXT : Nat := 1
def ROTATE : Nat := 2
def HFLIP : Nat := 4
def VFLIP : Nat := 8
def SCALE : Nat := 16
def OFFSET : Nat := 32
def GSAVE : Nat := ROTATE ||| HFLIP ||| VFLIP ||| SCALE ||| OFFSET
def REVERSED : Nat := 64

/-- A `PageSpec` (psspec.h); the `next` pointer chain is modelled by keeping
the specs in a `List`. -/
structure PageSpec where
  pageno : Nat
  flags : Nat
  rotate : Int
  scale : Frac
  xoff : Frac
  yoff : Frac
deriving DecidableEq

/-- `newspec` (psspec.c): all fields zero except `scale = 1`. -/
def newspec : PageSpec := ⟨0, 0, 0, ⟨1, 1⟩, ⟨0, 1⟩, ⟨0, 1⟩⟩

/-- The cell computation of the spec builder (psnup.c, main): page index `p`
within the sheet to `(across, up)`.  `p < horiz * vert` keeps the natural
subtractions below exact. -/
def cellOf (column leftright topbottom : Bool) (horiz vert : Nat) (p : Nat) :
    Nat × Nat :=
  if column then
    (if leftright then p / vert else horiz - 1 - p / vert,
     if topbottom then vert - 1 - p % vert else p % vert)
  else
    (if leftright then p % horiz else horiz - 1 - p % horiz,
     if topbottom then vert - 1 - p / horiz else p / horiz)

/-- The geometry and traversal configuration consumed by the spec builder
(psnup.c, after layout selection). -/
structure NupCfg where
  column : Bool
  leftright : Bool
  topbottom : Bool
  rotate : Bool
  horiz : Nat
  vert : Nat
  margin : Frac
  border : Frac
  ppwid : Frac
  pphgt : Frac
  hshift : Frac
  vshift : Frac
  scale : Frac
  uscale : Frac
deriving DecidableEq

/-- One iteration of the spec-construction loop of psnup.c (lines 227-254):
starting from `newspec`, set `xoff`/`rotate`/`ROTATE` according to the layout
rotation, then `pageno`, `scale`, `SCALE`, `yoff`, `OFFSET`, and `ADD_NEXT`
for every page but the last. -/
def buildSpec (cfg : NupCfg) (nup p : Nat) : PageSpec :=
  let cell := cellOf cfg.column cfg.leftright cfg.topbottom cfg.horiz cfg.vert p
  let s0 := newspec
  let s1 :=
    if cfg.rotate then
      { s0 with
        xoff := cfg.margin + Frac.ofNat (cell.1 + 1) * cfg.ppwid / Frac.ofNat cfg.horiz
          - cfg.hshift,
        rotate := 90, flags := s0.flags ||| ROTATE }
    else
      { s0 with
        xoff := cfg.margin + Frac.ofNat cell.1 * cfg.ppwid / Frac.ofNat cfg.horiz
          + cfg.hshift }
  let s2 := { s1 with pageno := p,
                      scale := if Frac.blt 0 cfg.uscale then cfg.uscale else cfg.scale,
                      flags := s1.flags ||| SCALE }
  let s3 := { s2 with
              yoff := cfg.margin + Frac.ofNat cell.2 * cfg.pphgt / Frac.ofNat cfg.vert
                + cfg.vshift,
              flags := s2.flags ||| OFFSET }
  if p + 1 < nup then { s3 with flags := s3.flags ||| ADD_NEXT } else s3

/-- The full spec list built by psnup.c's loop, in page order `0 .. nup-1`. -/
def buildSpecs (cfg : NupCfg) (nup : Nat) : List PageSpec :=
  (List.range nup).map (buildSpec cfg nup)

/-! ### The DSC scanner (psutil.c scanpages) -/

/-- Split a byte stream into `fgets` lines: each line runs through and
includes its newline; a final line without a newline is kept as is. -/
def splitLines : List Char → List (List Char)
  | [] => []
  | c :: cs =>
    if c = '\n' then ['\n'] :: splitLines cs
    else
      match splitLines cs with
      | [] => [[c]]
      | l :: ls => (c :: l) :: ls

/-- The static scanner state of psutil.c (`pagescmt`, `headerpos`, `endsetup`,
`beginprocset`, `endprocset`, `pages`, `pageptr`) plus the caller's
`sizeheaders` array.  The dynamic growth of `pageptr` (doubling `maxpages`)
is abstracted by a list. -/
structure ScanState where
  nesting : Int
  headerpos : Nat
  pagescmt : Nat
  endsetup : Nat
  beginprocset : Nat
  endprocset : Nat
  pages : Nat
  pageptr : List Nat
  sizeheaders : List Nat
deriving DecidableEq

def ScanState.init : ScanState := ⟨0, 0, 0, 0, 0, 0, 0, [], []⟩

/-- `iscomment(buffer+2, key)`, i.e. `strncmp` of the text after `%%` against
`key`.  No keyword contains a newline or NUL, so comparing against the tail of
the whole stream is equivalent to comparing against the `fgets` buffer. -/
def isC (line : List Char) (key : String) : Bool :=
  key.toList.isPrefixOf (line.drop 2)

/-- The action selected by one dispatch of the scanning loop of `scanpages`
(psutil.c): which state update the matching branch performs.  `header n`
stands for `headerpos = n`, `endprocsetAt n` for `endprocset = n`. -/
inductive ScanAct where
  | page
  | size
  | pagescomment
  | header (n : Nat)
  | nestInc
  | nestDec
  | endsetupAt
  | procsetAt
  | endprocsetAt (n : Nat)
  | stop
  | nothing
deriving DecidableEq

/-- The dispatch of the scanning loop of `scanpages` (psutil.c), i.e. the C
`if`/`else if` chain in source order, for the line starting at offset
`record`; `after` is `ftello` after the `fgets`. -/
def scanClass (st : ScanState) (record after : Nat) (line : List Char) :
    ScanAct :=
  if line.getD 0 (Char.ofNat 0) = '%' then
    if line.getD 1 (Char.ofNat 0) = '%' then
      if st.nesting = 0 ∧ isC line "Page:" then .page
      else if st.headerpos = 0 ∧ isC line "BoundingBox:" then .size
      else if st.headerpos = 0 ∧ isC line "HiResBoundingBox:" then .size
      else if st.headerpos = 0 ∧ isC line "DocumentPaperSizes:" then .size
      else if st.headerpos = 0 ∧ isC line "DocumentMedia:" then .size
      else if st.headerpos = 0 ∧ isC line "Pages:" then .pagescomment
      else if st.headerpos = 0 ∧ isC line "EndComments" then .header after
      else if isC line "BeginDocument" ∨ isC line "BeginBinary" ∨
          isC line "BeginFile" then .nestInc
      else if isC line "EndDocument" ∨ isC line "EndBinary" ∨
          isC line "EndFile" then .nestDec
      else if st.nesting = 0 ∧ isC line "EndSetup" then .endsetupAt
      else if st.nesting = 0 ∧ isC line "BeginProlog" then .header after
      else if st.nesting = 0 ∧ isC line "BeginProcSet: PStoPS" then .procsetAt
      else if st.beginprocset ≠ 0 ∧ st.endprocset = 0 ∧ isC line "EndProcSet" then
        .endprocsetAt after
      else if st.nesting = 0 ∧ (isC line "Trailer" ∨ isC line "EOF") then .stop
      else .nothing
    else if st.headerpos = 0 ∧ line.getD 1 (Char.ofNat 0) ≠ '!' then .header record
    else .nothing
  else if st.headerpos = 0 then .header record
  else .nothing

/-- The state update performed by the matching branch; the second component
is whether the loop breaks (`%%Trailer`/`%%EOF`, which seeks back to
`record`). -/
def scanApply (st : ScanState) (record : Nat) : ScanAct → ScanState × Bool
  | .page => ({ st with pages := st.pages + 1, pageptr := st.pageptr ++ [record] },
      false)
  | .size => ({ st with sizeheaders := st.sizeheaders ++ [record] }, false)
  | .pagescomment => ({ st with pagescmt := record }, false)
  | .header n => ({ st with headerpos := n }, false)
  | .nestInc => ({ st with nesting := st.nesting + 1 }, false)
  | .nestDec => ({ st with nesting := st.nesting - 1 }, false)
  | .endsetupAt => ({ st with endsetup := record }, false)
  | .procsetAt => ({ st with beginprocset := record }, false)
  | .endprocsetAt n => ({ st with endprocset := n }, false)
  | .stop => (st, true)
  | .nothing => (st, false)

/-- One iteration of the scanning loop of `scanpages` (psutil.c): dispatch on
the line and apply the matching branch's update. -/
def scanLine (st : ScanState) (record after : Nat) (line : List Char) :
    ScanState × Bool :=
  scanApply st record (scanClass st record after line)

/-- The scanning loop over the `fgets` lines, carrying the current offset;
returns the final state and the offset at which the scan stopped (either the
start of the `%%Trailer`/`%%EOF` line after seeking back, or end of file). -/
def scanGo : List (List Char) → Nat → ScanState → ScanState × Nat
  | [], pos, st => (st, pos)
  | l :: ls, pos, st =>
    match scanLine st pos (pos + l.length) l with
    | (st', true) => (st', pos)
    | (st', false) => scanGo ls (pos + l.length) st'

/-- The outcome of `scanpages` (psutil.c): the raw loop state, the appended
trailer sentinel, and the clamped `endsetup`. -/
structure ScanResult where
  raw : ScanState
  stop : Nat
  pages : Nat
  pageptr : List Nat
  endsetup : Nat
  pagescmt : Nat
  headerpos : Nat
  beginprocset : Nat
  endprocset : Nat
  sizeheaders : List Nat
deriving DecidableEq

/-- `scanpages` (psutil.c): run the scan from offset 0, append the stopping
offset to `pageptr` as the trailer sentinel, and clamp `endsetup` to
`pageptr[0]` when it is 0 or exceeds `pageptr[0]`. -/
def scanpages (d : List Char) : ScanResult :=
  let r := scanGo (splitLines d) 0 ScanState.init
  let st := r.1
  let pp := st.pageptr ++ [r.2]
  let es := if st.endsetup = 0 ∨ pp.getD 0 0 < st.endsetup then pp.getD 0 0
            else st.endsetup
  ⟨st, r.2, st.pages, pp, es, st.pagescmt, st.headerpos, st.beginprocset,
    st.endprocset, st.sizeheaders⟩

theorem scanLine_pages_inv (st : ScanState) (record after : Nat)
    (line : List Char) (h : st.pages = st.pageptr.length) :
    (scanLine st record after line).1.pages =
      (scanLine st record after line).1.pageptr.length := by
  unfold scanLine
  cases scanClass st record after line <;> simp [scanApply, h]

theorem scanGo_pages_inv (ls : List (List Char)) :
    ∀ pos st, st.pages = st.pageptr.length →
      (scanGo ls pos st).1.pages = (scanGo ls pos st).1.pageptr.length := by
  induction ls with
  | nil => intro pos st h; exact h
  | cons l ls ih =>
    intro pos st h
    unfold scanGo
    have h' := scanLine_pages_inv st pos (pos + l.length) l h
    rcases hm : scanLine st pos (pos + l.length) l with ⟨st', b⟩
    rw [hm] at h'
    cases b with
    | true => exact h'
    | false => exact ih (pos + l.length) st' h'

/-- C8: after the DSC scan completes, the offset at which the scan stopped is
appended to `page_offsets` as the trailer sentinel, so `page_offsets` has
`pages + 1` entries; `endsetup` is clamped to `page_offsets[0]` exactly when
the recorded value is 0 or exceeds `page_offsets[0]`, and in all cases the
final `setup_end ≤ page_offsets[0]`. -/
theorem scanpages_invariants (d : List Char) :
    (scanpages d).pageptr.length = (scanpages d).pages + 1 ∧
    (scanpages d).pageptr =
      (scanGo (splitLines d) 0 ScanState.init).1.pageptr ++ [(scanpages d).stop] ∧
    (scanpages d).endsetup ≤ (scanpages d).pageptr.getD 0 0 ∧
    ((scanpages d).raw.endsetup = 0 ∨
        (scanpages d).pageptr.getD 0 0 < (scanpages d).raw.endsetup →
      (scanpages d).endsetup = (scanpages d).pageptr.getD 0 0) ∧
    ((scanpages d).raw.endsetup ≠ 0 ∧
        (scanpages d).raw.endsetup ≤ (scanpages d).pageptr.getD 0 0 →
      (scanpages d).endsetup = (scanpages d).raw.endsetup) := by
  have hinv := scanGo_pages_inv (splitLines d) 0 ScanState.init rfl
  unfold scanpages
  dsimp only
  refine ⟨by simp [hinv], rfl, ?_, ?_, ?_⟩
  · split
    · exact Nat.le_refl _
    · next hcond => omega
  · intro hcl
    rw [if_pos hcl]
  · intro ⟨h1, h2⟩
    rw [if_neg (by omega)]

/-! ### The output writer and the imposition emitter (psutil.c, psspec.c) -/

def strL (s : String) : List Char := s.toList

/-- Decimal rendering of a C `int`. -/
def intRepr (i : Int) : String :=
  match i with
  | .ofNat n => Nat.repr n
  | .negSucc n => "-" ++ Nat.repr (n + 1)

/-- Minimal model of `printf("%f", x)`: sign, integer part and six decimal
places (truncated; the round-to-nearest conversion of a binary double is not
modelled — no claim constrains these digit strings). -/
def fmtF (q : Frac) : List Char :=
  let na := q.num.natAbs
  let da := q.den.natAbs
  let scaled := na * 1000000 / da
  let fs := Nat.repr (scaled % 1000000)
  (if q.num < 0 then ['-'] else []) ++ (Nat.repr (scaled / 1000000)).toList ++
    ['.'] ++ List.replicate (6 - fs.length) '0' ++ fs.toList

/-- The PStoPS procset text (psspec.c `prologue`), exactly as the C string
literal reads after line splicing: each `\<newline>` inside the literal
deletes both characters, so the whole procset is emitted as a single line
ending in the final `\n`. -/
def prologue : List Char := String.toList (
  "userdict begin[/showpage/erasepage/copypage]\x7bdup where\x7bpop dup l" ++
  "oad type/operatortype eq\x7b /PStoPSenablepage cvx 1 index load 1 a" ++
  "rray astore cvx \x7b\x7d bind /ifelse cvx 4 array astore cvx def\x7d\x7bpop\x7d" ++
  "ifelse\x7d\x7bpop\x7difelse\x7dforall /PStoPSenablepage true def[/letter/leg" ++
  "al/executivepage/a4/a4small/b5/com10envelope%nullify /monarchenv" ++
  "elope/c5envelope/dlenvelope/lettersmall/note%paper /folio/quarto" ++
  "/a5]\x7bdup where\x7bdup wcheck\x7bexch\x7b\x7dput\x7d%operators \x7bpop\x7b\x7ddef\x7difelse\x7d" ++
  "\x7bpop\x7difelse\x7dforall/setpagedevice \x7bpop\x7dbind 1 index where\x7bdup wch" ++
  "eck\x7b3 1 roll put\x7d \x7bpop def\x7difelse\x7d\x7bdef\x7difelse/PStoPSmatrix matri" ++
  "x currentmatrix def/PStoPSxform matrix def/PStoPSclip\x7bclippath\x7dd" ++
  "ef/defaultmatrix\x7bPStoPSmatrix exch PStoPSxform exch concatmatrix" ++
  "\x7dbind def/initmatrix\x7bmatrix defaultmatrix setmatrix\x7dbind def/ini" ++
  "tclip[\x7bmatrix currentmatrix PStoPSmatrix setmatrix [\x7bcurrentpoin" ++
  "t\x7dstopped\x7b$error/newerror false put\x7bnewpath\x7d\x7d \x7b/newpath cvx 3 1 " ++
  "roll/moveto cvx 4 array astore cvx\x7difelse] \x7b[/newpath cvx\x7b/movet" ++
  "o cvx\x7d\x7b/lineto cvx\x7d \x7b/curveto cvx\x7d\x7b/closepath cvx\x7dpathforall]cvx" ++
  " exch pop\x7d stopped\x7b$error/errorname get/invalidaccess eq\x7bclearto" ++
  "mark $error/newerror false put cvx exec\x7d\x7bstop\x7difelse\x7dif\x7dbind alo" ++
  "ad pop /initclip dup load dup type dup/operatortype eq\x7bpop exch " ++
  "pop\x7d \x7bdup/arraytype eq exch/packedarraytype eq or  \x7bdup xcheck\x7be" ++
  "xch pop aload pop\x7d\x7bpop cvx\x7difelse\x7d  \x7bpop cvx\x7difelse\x7difelse \x7bnewp" ++
  "ath PStoPSclip clip newpath exec setmatrix\x7d bind aload pop]cvx d" ++
  "ef/initgraphics\x7binitmatrix newpath initclip 1 setlinewidth 0 set" ++
  "linecap 0 setlinejoin []0 setdash 0 setgray 10 setmiterlimit\x7dbin" ++
  "d defend\n")

/-- The fixed context of the emitter: the input bytes, the offsets recorded
by the scanner (psutil.c statics) and the psspec.c globals `width`,
`height`. -/
structure Ctx where
  d : List Char
  pages : Nat
  pageptr : List Nat
  pagescmt : Nat
  headerpos : Nat
  endsetup : Nat
  beginprocset : Nat
  endprocset : Nat
  width : Frac
  height : Frac
deriving DecidableEq

/-- The mutable emission state: the input cursor, the produced output, the
`bytes` counter and the `outputpage` counter of psutil.c.  `phdrs` is a
specification ghost: the list of `%%Page:` header lines written so far, each
of which is also appended to `out` at the moment it is recorded; it lets
theorems observe the emitted page headers without re-parsing `out`. -/
structure Em where
  pos : Nat
  out : List Char
  bytes : Nat
  outputpage : Nat
  phdrs : List (List Char)
deriving DecidableEq

/-- `writestring` (psutil.c): append `s` to the output and add `strlen(s)`
(no NUL bytes, so the length) to `bytes`. -/
def wstr (s : List Char) (e : Em) : Em :=
  { e with out := e.out ++ s, bytes := e.bytes + s.length }

/-- A call to `fcopy` as a state step: the copied bytes are appended to the
output and counted. -/
def fcopyE (ctx : Ctx) (upto : Nat) (igns : List Nat) (e : Em) : Option Em :=
  match fcopy ctx.d upto igns e.pos with
  | none => none
  | some (w, p) =>
    some { e with pos := p, out := e.out ++ w, bytes := e.bytes + w.length }

/-- Matching-paren scan for a `(...)` label of a `%%Page:` line (seekpage,
psutil.c); reaching the end of the line without closing (where C hits the
NUL terminator) is fatal. -/
def parenScan : Nat → List Char → Bool
  | _, [] => false
  | n, c :: cs =>
    if c = ')' then (if n = 1 then true else parenScan (n - 1) cs)
    else if c = '(' then parenScan (n + 1) cs
    else parenScan n cs

/-- The `%%Page:` line validation performed by `seekpage` (psutil.c): the
comment prefix, then either a balanced `(...)` label (running into the NUL
before it closes is fatal) or a token delimited by whitespace (the line's
newline at the latest; C running off the buffer is modelled as fatal). -/
def pageOk (line : List Char) : Bool :=
  (strL "%%Page:").isPrefixOf line &&
    (let rest := (line.drop 7).dropWhile fun c => isspace c
     match rest with
     | '(' :: cs => parenScan 1 cs
     | [] => false
     | _ => !((rest.dropWhile fun c => !(isspace c)).isEmpty))

/-- `seekpage(p)` (psutil.c): seek to `pageptr[p]`, read the line there and
validate it as a `%%Page:` comment with a well-formed label; the parsed
label and `pageno = atoi(...)` are stored in globals that `pstops`
overwrites before any use, so only the validation and the cursor movement
are modelled.  A missing or malformed `%%Page:` line is fatal. -/
def seekpage (ctx : Ctx) (p : Nat) (e : Em) : Option Em :=
  let pos := ctx.pageptr.getD p 0
  if pos < ctx.d.length ∧ pageOk (slice ctx.d pos (lineEnd ctx.d pos)) = true then
    some { e with pos := lineEnd ctx.d pos }
  else none

/-- `writepageheader` (psutil.c): `%%Page: <label> <++outputpage>`; the
written header line is also recorded in the `phdrs` ghost. -/
def writepageheader (label : List Char) (e : Em) : Em :=
  let e1 := { e with outputpage := e.outputpage + 1 }
  let line := strL "%%Page: " ++ label ++ strL " " ++
    (Nat.repr e1.outputpage).toList ++ strL "\n"
  wstr line { e1 with phdrs := e1.phdrs ++ [line] }

def writepagesetupGo (ctx : Ctx) : Nat → Em → Option Em
  | 0, _ => none
  | fuel + 1, e =>
    if e.pos < ctx.d.length then
      let line := slice ctx.d e.pos (lineEnd ctx.d e.pos)
      let e1 := { e with pos := lineEnd ctx.d e.pos }
      if (strL "PStoPSxform").isPrefixOf line then some e1
      else writepagesetupGo ctx fuel (wstr line e1)
    else none

/-- `writepagesetup` (psutil.c): when the input has a PStoPS procset, echo
page-setup lines until a line starting `PStoPSxform` (which is consumed but
not echoed); reaching EOF first is fatal.  The fuel `d.length + 1` exceeds
the number of remaining lines, so it never runs out before EOF does. -/
def writepagesetup (ctx : Ctx) (e : Em) : Option Em :=
  if ctx.beginprocset ≠ 0 then writepagesetupGo ctx (ctx.d.length + 1) e
  else some e

/-- `writepagebody` (psutil.c): copy up to the start of the next page. -/
def writepagebody (ctx : Ctx) (p : Nat) (e : Em) : Option Em :=
  fcopyE ctx (ctx.pageptr.getD (p + 1) 0) [] e

/-- `writeprolog` (psutil.c): copy up to `endsetup`. -/
def writeprolog (ctx : Ctx) (e : Em) : Option Em := fcopyE ctx ctx.endsetup [] e

/-- `writesetup` (psutil.c): copy up to the first page boundary. -/
def writesetup (ctx : Ctx) (e : Em) : Option Em :=
  fcopyE ctx (ctx.pageptr.getD 0 0) [] e

/-- `writepartprolog` (psutil.c): copy the prolog up to any pre-existing
PStoPS procset, seek past its end if one was recorded, copy on to
`endsetup`; returns `!beginprocset`, i.e. `true` exactly when the input had
no procset. -/
def writepartprolog (ctx : Ctx) (e : Em) : Option (Em × Bool) :=
  match (if ctx.beginprocset ≠ 0 then fcopyE ctx ctx.beginprocset [] e else some e) with
  | none => none
  | some e1 =>
    let e2 := if ctx.endprocset ≠ 0 then { e1 with pos := ctx.endprocset } else e1
    match writeprolog ctx e2 with
    | none => none
    | some e3 => some (e3, ctx.beginprocset = 0)

/-- The `PStoPSxform` composition line of psspec.c (lines 146-148; the
backslash-newline splices keep the continuation lines' leading spaces). -/
def xformLine : List Char :=
  strL "userdict/PStoPSxform PStoPSmatrix matrix currentmatrix matrix invertmatrix matrix concatmatrix matrix invertmatrix put\n"

/-- The prolog step of `pstops` (psspec.c lines 144-149):
`if (writepartprolog()) writestring(<xformLine>)`, so the composition line
is emitted exactly when the input had **no** pre-existing PStoPS procset. -/
def prologStep (ctx : Ctx) (e : Em) : Option Em :=
  match writepartprolog ctx e with
  | none => none
  | some (e1, noprocset) => some (if noprocset then wstr xformLine e1 else e1)

/-- `writetrailer` (psutil.c): seek to `pageptr[pages]` and copy the rest of
the input line by line (modelled as one copy of the remaining bytes). -/
def writetrailer (ctx : Ctx) (e : Em) : Em :=
  let w := ctx.d.drop (ctx.pageptr.getD ctx.pages 0)
  { e with pos := ctx.d.length, out := e.out ++ w, bytes := e.bytes + w.length }

/-- The `%%DocumentMedia` and `%%BoundingBox` lines written by
`writeheadermedia` (psutil.c), with the dimensions cast to `int`. -/
def mediaText (w h : Frac) : List Char :=
  strL "%%DocumentMedia: plain " ++ (intRepr (Frac.trunc w)).toList ++ strL " " ++
    (intRepr (Frac.trunc h)).toList ++ strL " 0 () ()\n" ++
  strL "%%BoundingBox: 0 0 " ++ (intRepr (Frac.trunc w)).toList ++ strL " " ++
    (intRepr (Frac.trunc h)).toList ++ strL "\n"

/-- The rewritten `%%Pages:` line. -/
def pagesLine (p : Nat) : List Char :=
  strL "%%Pages: " ++ (Nat.repr p).toList ++ strL " 0\n"

/-- The `pagescmt != 0` arm of `writeheadermedia` (psutil.c): copy up to the
recorded `%%Pages:` line, skip it with one `fgets` (fatal at EOF), emit the
media lines when both dimensions exceed -1, emit the rewritten `%%Pages:`
and copy on to `headerpos`. -/
def whmPages (ctx : Ctx) (p : Nat) (igns : List Nat) (e0 : Em) : Option Em :=
  match fcopyE ctx ctx.pagescmt igns e0 with
  | none => none
  | some e1 =>
    if e1.pos < ctx.d.length then
      fcopyE ctx ctx.headerpos igns
        (wstr (pagesLine p)
          (if Frac.blt ⟨-1, 1⟩ ctx.width && Frac.blt ⟨-1, 1⟩ ctx.height then
            wstr (mediaText ctx.width ctx.height) { e1 with pos := lineEnd ctx.d e1.pos }
          else { e1 with pos := lineEnd ctx.d e1.pos }))
    else none

/-- `writeheadermedia` (psutil.c): seek to offset 0; when a `%%Pages:` line
was recorded run `whmPages`, otherwise just copy the header through
unchanged up to `headerpos` (honouring the ignore list). -/
def writeheadermedia (ctx : Ctx) (p : Nat) (igns : List Nat) (e : Em) :
    Option Em :=
  if ctx.pagescmt ≠ 0 then whmPages ctx p igns { e with pos := 0 }
  else fcopyE ctx ctx.headerpos igns { e with pos := 0 }

/-- The text written by the `GSAVE` block of `pstops` (psspec.c lines
174-193): setmatrix, the conditional translate/rotate/hflip/vflip/scale (in
that order), the matrix save, and the clip (plus optional border stroke)
when the output dimensions are positive. -/
def gsaveText (wd ht draw : Frac) (ps : PageSpec) : List Char :=
  strL "PStoPSmatrix setmatrix\n" ++
  (if ps.flags &&& OFFSET ≠ 0 then
    fmtF ps.xoff ++ strL " " ++ fmtF ps.yoff ++ strL " translate\n" else []) ++
  (if ps.flags &&& ROTATE ≠ 0 then
    (intRepr ps.rotate).toList ++ strL " rotate\n" else []) ++
  (if ps.flags &&& HFLIP ≠ 0 then
    strL "[ -1 0 0 1 " ++ fmtF (wd * ps.scale) ++ strL " 0 ] concat\n" else []) ++
  (if ps.flags &&& VFLIP ≠ 0 then
    strL "[ 1 0 0 -1 0 " ++ fmtF (ht * ps.scale) ++ strL " ] concat\n" else []) ++
  (if ps.flags &&& SCALE ≠ 0 then fmtF ps.scale ++ strL " dup scale\n" else []) ++
  strL "userdict/PStoPSmatrix matrix currentmatrix put\n" ++
  (if Frac.blt 0 wd && Frac.blt 0 ht then
    strL "userdict/PStoPSclip\x7b0 0 moveto " ++ fmtF wd ++ strL " 0 rlineto 0 " ++
      fmtF ht ++ strL " rlineto -" ++ fmtF wd ++
      strL " 0 rlineto closepath\x7dput initclip\n" ++
    (if Frac.blt 0 draw then
      strL "gsave clippath 0 setgray " ++ fmtF draw ++
        strL " setlinewidth stroke grestore\n"
     else [])
   else [])

/-- The page numbers listed in a composite page label: the current spec and
its `ADD_NEXT` successors (the do/while chain of psspec.c lines 166-169). -/
def labelNums (thispg maxpage modulo : Nat) : List PageSpec → List Nat
  | [] => []
  | ps :: rest =>
    (if ps.flags &&& REVERSED ≠ 0 then maxpage - thispg - modulo + ps.pageno
     else thispg + ps.pageno) ::
    (if ps.flags &&& ADD_NEXT ≠ 0 then labelNums thispg maxpage modulo rest else [])

/-- `(p1,p2,...)` from the listed numbers (`sprintf("%c%d", sep, n)`). -/
def mkLabel (ns : List Nat) : List Char :=
  '(' :: (List.intercalate (strL ",") (ns.map fun n => (Nat.repr n).toList)) ++
    strL ")"

/-- The padded-blank literal of psspec.c (lines 202-203): the C source reads
`"PStoPSxform concat\` + newline + `showpage\n"`, and a backslash-newline
inside a string literal is a line splice that deletes both characters, so
the emitted bytes are `PStoPSxform concatshowpage\n` — with no separator
between `concat` and `showpage`. -/
def blankLine : List Char := strL "PStoPSxform concatshowpage\n"

/-- The writes at the head of one spec iteration of `pstops` (psspec.c lines
162-196): the page header (unless `add_last`), the `PStoPSsaved save`, the
`GSAVE` block, and `/PStoPSenablepage false def` for an `ADD_NEXT` spec. -/
def specPre (ctx : Ctx) (draw : Frac) (maxpage modulo thispg : Nat) (al : Bool)
    (ps : PageSpec) (rest : List PageSpec) (e1 : Em) : Em :=
  let e2 := if al then e1
    else writepageheader (mkLabel (labelNums thispg maxpage modulo (ps :: rest))) e1
  let e3 := wstr (strL "userdict/PStoPSsaved save put\n") e2
  let e4 := if ps.flags &&& GSAVE ≠ 0 then
      wstr (gsaveText ctx.width ctx.height draw ps) e3
    else e3
  if ps.flags &&& ADD_NEXT ≠ 0 then
    wstr (strL "/PStoPSenablepage false def\n") e4
  else e4

/-- The body writes of one spec iteration (psspec.c lines 197-203): for a
real page, the page setup passthrough, `PStoPSxform concat` and the page
body; for a padded blank, the `blankLine` literal. -/
def specBody (ctx : Ctx) (actualpg : Nat) (e5 : Em) : Option Em :=
  if actualpg < ctx.pages then
    match writepagesetup ctx e5 with
    | none => none
    | some e6 => writepagebody ctx actualpg (wstr (strL "PStoPSxform concat\n") e6)
  else some (wstr blankLine e5)

/-- The page index a spec addresses within the sheet at `thispg` (psspec.c
lines 156-159). -/
def actualPage (maxpage thispg modulo : Nat) (ps : PageSpec) : Nat :=
  if ps.flags &&& REVERSED ≠ 0 then maxpage - thispg - modulo + ps.pageno
  else thispg + ps.pageno

/-- `if (actualpg < pages) seekpage(actualpg);` (psspec.c lines 160-161). -/
def maybeSeek (ctx : Ctx) (p : Nat) (e : Em) : Option Em :=
  if p < ctx.pages then seekpage ctx p e else some e

/-- The inner loop of `pstops` (psspec.c lines 154-205): one iteration per
spec of the sheet, threading `add_last`; each iteration seeks the actual
page when it exists, performs the head writes and the body writes, and
closes with `PStoPSsaved restore`. -/
def specLoop (ctx : Ctx) (draw : Frac) (maxpage modulo thispg : Nat) :
    List PageSpec → Bool → Em → Option Em
  | [], _, e => some e
  | ps :: rest, add_last, e =>
    match maybeSeek ctx (actualPage maxpage thispg modulo ps) e with
    | none => none
    | some e1 =>
      match specBody ctx (actualPage maxpage thispg modulo ps)
          (specPre ctx draw maxpage modulo thispg add_last ps rest e1) with
      | none => none
      | some e7 =>
        specLoop ctx draw maxpage modulo thispg rest
          (decide (ps.flags &&& ADD_NEXT ≠ 0)) (wstr (strL "PStoPSsaved restore\n") e7)

/-- The outer loop of `pstops`: one iteration per output sheet,
`thispg = 0, modulo, ...`; the iteration count is `maxpage / modulo`. -/
def sheetLoop (ctx : Ctx) (draw : Frac) (modulo maxpage : Nat)
    (specs : List PageSpec) : Nat → Nat → Em → Option Em
  | 0, _, e => some e
  | k + 1, thispg, e =>
    match specLoop ctx draw maxpage modulo thispg specs false e with
    | none => none
    | some e1 => sheetLoop ctx draw modulo maxpage specs k (thispg + modulo) e1

/-- The procset header block written by `pstops` (psspec.c lines 136-143):
the `%%BeginProcSet` line (with `-nobind` when requested), the verbatim
procset, the desperation `/bind{}def` when `nobind`, and `%%EndProcSet`. -/
def procsetText (nobind : Bool) : List Char :=
  strL "%%BeginProcSet: PStoPS" ++ (if nobind then strL "-nobind" else []) ++
    strL " 1 15\n" ++ prologue ++
    (if nobind then strL "/bind\x7b\x7ddef\n" else []) ++ strL "%%EndProcSet\n"

/-- `pstops` (psspec.c): the imposition emitter.  `maxpage` rounds the input
page count up to a multiple of `modulo` (missing trailing pages are padded
as blanks); the rewritten `%%Pages:` count is `(maxpage / modulo) * pps`. -/
def pstops (ctx : Ctx) (modulo pps : Nat) (nobind : Bool)
    (specs : List PageSpec) (draw : Frac) (ignorelist : List Nat) : Option Em :=
  let maxpage := ((ctx.pages + modulo - 1) / modulo) * modulo
  match writeheadermedia ctx ((maxpage / modulo) * pps) ignorelist
      ⟨0, [], 0, 0, []⟩ with
  | none => none
  | some e1 =>
    match prologStep ctx (wstr (procsetText nobind) e1) with
    | none => none
    | some e3 =>
      match writesetup ctx e3 with
      | none => none
      | some e4 =>
        match sheetLoop ctx draw modulo maxpage specs (maxpage / modulo) 0 e4 with
        | none => none
        | some e5 => some (writetrailer ctx e5)

/-! ### psnup: layout optimisation and driver (psnup.c) -/

def nextdivGo (m : Nat) : Nat → Nat → Nat
  | 0, _ => 0
  | fuel + 1, c =>
    if c + 1 ≤ m then
      (if m % (c + 1) = 0 then c + 1 else nextdivGo m fuel (c + 1))
    else 0

/-- `nextdiv` (psnup.c): the next exact divisor of `m` larger than `n`, or 0
if there is none; the walk `++n <= m` is bounded by `m - n` steps. -/
def nextdiv (n m : Nat) : Nat := nextdivGo m (m - n) n

/-- The accumulator of psnup.c's layout optimisation: the best waste so far
and the accepted scale, centring shifts, grid and rotation. -/
structure Layout where
  best : Frac
  scale : Frac
  hshift : Frac
  vshift : Frac
  horiz : Nat
  vert : Nat
  rotate : Bool
deriving DecidableEq

/-- One body of the optimisation loop (psnup.c lines 179-206) for the
divisor pair `(hor, ver)`: the normal orientation and then the rotated one,
each accepted when its waste is strictly below the best so far; on
acceptance the scale is recomputed with the borders, the shifts centre the
cell, and the rotated accept stores the grid as `(horiz, vert) =
(ver, hor)` with `rotate = !flip`. -/
def tryPair (wd ht ppwid pphgt border : Frac) (flip : Bool) (hor ver : Nat)
    (st : Layout) : Layout :=
  let horF := Frac.ofNat hor
  let verF := Frac.ofNat ver
  let scl := fmin (pphgt / (ht * verF)) (ppwid / (wd * horF))
  let optim := (ppwid - scl * wd * horF) * (ppwid - scl * wd * horF) +
    (pphgt - scl * ht * verF) * (pphgt - scl * ht * verF)
  let st1 :=
    if Frac.blt optim st.best then
      let scale2 := fmin ((pphgt - 2 * border * verF) / (ht * verF))
        ((ppwid - 2 * border * horF) / (wd * horF))
      { best := optim, scale := scale2,
        hshift := (ppwid / horF - wd * scale2) / 2,
        vshift := (pphgt / verF - ht * scale2) / 2,
        horiz := hor, vert := ver, rotate := flip }
    else st
  let scl2 := fmin (pphgt / (wd * horF)) (ppwid / (ht * verF))
  let optim2 := (pphgt - scl2 * wd * horF) * (pphgt - scl2 * wd * horF) +
    (ppwid - scl2 * ht * verF) * (ppwid - scl2 * ht * verF)
  if Frac.blt optim2 st1.best then
    let scale2 := fmin ((pphgt - 2 * border * horF) / (wd * horF))
      ((ppwid - 2 * border * verF) / (ht * verF))
    { best := optim2, scale := scale2,
      hshift := (ppwid / verF - ht * scale2) / 2,
      vshift := (pphgt / horF - wd * scale2) / 2,
      horiz := ver, vert := hor, rotate := !flip }
  else st1

def layoutGo (wd ht ppwid pphgt border : Frac) (flip : Bool) (nup : Nat) :
    Nat → Nat → Layout → Layout
  | 0, _, st => st
  | fuel + 1, hor, st =>
    if hor = 0 then st
    else layoutGo wd ht ppwid pphgt border flip nup fuel (nextdiv hor nup)
      (tryPair wd ht ppwid pphgt border flip hor (nup / hor) st)

/-- The whole optimisation loop of psnup.c: walk `hor` through the exact
divisors of `nup` starting at 1; `nup + 1` units of fuel dominate the
strictly increasing walk.  Initially `best = tolerance`, `scale = 1`. -/
def layoutSearch (wd ht ppwid pphgt border tolerance : Frac) (flip : Bool)
    (nup : Nat) : Layout :=
  layoutGo wd ht ppwid pphgt border flip nup (nup + 1) 1
    ⟨tolerance, ⟨1, 1⟩, ⟨0, 1⟩, ⟨0, 1⟩, 0, 0, false⟩

/-- The outcome of a psnup run: the chosen layout, the built spec list and
the final emitter state. -/
structure PsnupOut where
  layout : Layout
  specs : List PageSpec
  em : Em
deriving DecidableEq

/-- The psnup driver (psnup.c main, after CLI parsing, with the output paper
size set and no `-W`/`-H` override): subtract the margins, scan the input,
run the layout optimisation (failing when nothing beat the tolerance), swap
the clipping dimensions under `flip`, transform the traversal order under
rotation, build the spec list and run
`pstops(nup, 1, 0, specs, draw, sizeheaders)`. -/
def psnupRun (nup : Nat) (wd ht margin border tolerance uscale draw : Frac)
    (column leftright topbottom flip : Bool) (d : List Char) : Option PsnupOut :=
  let ppwid := wd - margin * 2
  let pphgt := ht - margin * 2
  if Frac.blt 0 ppwid && Frac.blt 0 pphgt then
    let sc := scanpages d
    let L := layoutSearch wd ht ppwid pphgt border tolerance flip nup
    if Frac.beqv L.best tolerance then none
    else
      let wd2 := if flip then ht else wd
      let ht2 := if flip then wd else ht
      let column2 := if L.rotate then !column else column
      let leftright2 := if L.rotate then topbottom else leftright
      let topbottom2 := if L.rotate then !leftright else topbottom
      let cfg : NupCfg := ⟨column2, leftright2, topbottom2, L.rotate, L.horiz,
        L.vert, margin, border, ppwid, pphgt, L.hshift, L.vshift, L.scale, uscale⟩
      let specs := buildSpecs cfg nup
      let ctx : Ctx := ⟨d, sc.pages, sc.pageptr, sc.pagescmt, sc.headerpos,
        sc.endsetup, sc.beginprocset, sc.endprocset, wd2, ht2⟩
      match pstops ctx nup 1 false specs draw sc.sizeheaders with
      | none => none
      | some em => some ⟨L, specs, em⟩
  else none

/-! ### Projection lemmas for the emitter steps -/

theorem fcopyE_proj {ctx : Ctx} {upto : Nat} {igns : List Nat} {e e' : Em}
    (h : fcopyE ctx upto igns e = some e') :
    e'.outputpage = e.outputpage ∧ e'.phdrs = e.phdrs ∧
      ∃ t, e'.out = e.out ++ t := by
  unfold fcopyE at h
  rcases hf : fcopy ctx.d upto igns e.pos with _ | ⟨w, p⟩ <;> rw [hf] at h
  · cases h
  · cases h
    exact ⟨rfl, rfl, w, rfl⟩

theorem seekpage_proj {ctx : Ctx} {p : Nat} {e e' : Em}
    (h : seekpage ctx p e = some e') :
    e'.outputpage = e.outputpage ∧ e'.phdrs = e.phdrs ∧ e'.out = e.out := by
  unfold seekpage at h
  dsimp only at h
  split at h
  · cases h
    exact ⟨rfl, rfl, rfl⟩
  · cases h

theorem writepagesetupGo_proj {ctx : Ctx} :
    ∀ {fuel : Nat} {e e' : Em}, writepagesetupGo ctx fuel e = some e' →
      e'.outputpage = e.outputpage ∧ e'.phdrs = e.phdrs ∧
        ∃ t, e'.out = e.out ++ t := by
  intro fuel
  induction fuel with
  | zero => intro e e' h; cases h
  | succ fuel ih =>
    intro e e' h
    unfold writepagesetupGo at h
    dsimp only at h
    split at h
    · split at h
      · cases h
        exact ⟨rfl, rfl, [], by simp⟩
      · obtain ⟨h1, h2, t, h3⟩ := ih h
        exact ⟨h1, h2, slice ctx.d e.pos (lineEnd ctx.d e.pos) ++ t,
          by simp [h3, wstr]⟩
    · cases h

theorem writepagesetup_proj {ctx : Ctx} {e e' : Em}
    (h : writepagesetup ctx e = some e') :
    e'.outputpage = e.outputpage ∧ e'.phdrs = e.phdrs ∧
      ∃ t, e'.out = e.out ++ t := by
  unfold writepagesetup at h
  split at h
  · exact writepagesetupGo_proj h
  · cases h
    exact ⟨rfl, rfl, [], by simp⟩

theorem writepartprolog_proj {ctx : Ctx} {e e' : Em} {b : Bool}
    (h : writepartprolog ctx e = some (e', b)) :
    e'.outputpage = e.outputpage ∧ e'.phdrs = e.phdrs ∧
      ∃ t, e'.out = e.out ++ t := by
  unfold writepartprolog at h
  dsimp only at h
  split at h
  · cases h
  · next e1 heq =>
    rcases hw : writeprolog ctx (if ctx.endprocset ≠ 0 then { e1 with pos := ctx.endprocset } else e1)
      with _ | e3 <;> rw [hw] at h
    · cases h
    · cases h
      have h1 : e1.outputpage = e.outputpage ∧ e1.phdrs = e.phdrs ∧
          ∃ t, e1.out = e.out ++ t := by
        split at heq
        · exact fcopyE_proj heq
        · cases heq
          exact ⟨rfl, rfl, [], by simp⟩
      obtain ⟨ha, hb, t1, hcc⟩ := h1
      have h2 := fcopyE_proj (e := if ctx.endprocset ≠ 0 then { e1 with pos := ctx.endprocset } else e1) hw
      obtain ⟨hd, he, t2, hf⟩ := h2
      have hmid : (if ctx.endprocset ≠ 0 then { e1 with pos := ctx.endprocset } else e1).outputpage = e1.outputpage ∧
          (if ctx.endprocset ≠ 0 then { e1 with pos := ctx.endprocset } else e1).phdrs = e1.phdrs ∧
          (if ctx.endprocset ≠ 0 then { e1 with pos := ctx.endprocset } else e1).out = e1.out := by
        split <;> exact ⟨rfl, rfl, rfl⟩
      refine ⟨by rw [hd, hmid.1, ha], by rw [he, hmid.2.1, hb], t1 ++ t2, ?_⟩
      rw [hf, hmid.2.2, hcc, List.append_assoc]

theorem prologStep_proj {ctx : Ctx} {e e' : Em}
    (h : prologStep ctx e = some e') :
    e'.outputpage = e.outputpage ∧ e'.phdrs = e.phdrs ∧
      ∃ t, e'.out = e.out ++ t := by
  unfold prologStep at h
  rcases hw : writepartprolog ctx e with _ | ⟨e1, b⟩ <;> rw [hw] at h
  · cases h
  · cases h
    obtain ⟨h1, h2, t, h3⟩ := writepartprolog_proj hw
    split
    · exact ⟨h1, h2, t ++ xformLine, by simp [wstr, h3]⟩
    · exact ⟨h1, h2, t, h3⟩

theorem whmPages_proj {ctx : Ctx} {p : Nat} {igns : List Nat} {e0 e' : Em}
    (h : whmPages ctx p igns e0 = some e') :
    e'.outputpage = e0.outputpage ∧ e'.phdrs = e0.phdrs ∧
      ∃ a b, e'.out = e0.out ++ a ++ pagesLine p ++ b := by
  unfold whmPages at h
  split at h
  · cases h
  · next e1 heq =>
    split at h
    · obtain ⟨g1, g2, t1, g3⟩ := fcopyE_proj heq
      obtain ⟨h1, h2, t2, h3⟩ := fcopyE_proj h
      have hop : (wstr (pagesLine p)
          (if Frac.blt ⟨-1, 1⟩ ctx.width && Frac.blt ⟨-1, 1⟩ ctx.height then
            wstr (mediaText ctx.width ctx.height) { e1 with pos := lineEnd ctx.d e1.pos }
          else { e1 with pos := lineEnd ctx.d e1.pos })).outputpage = e1.outputpage := by
        split <;> rfl
      have hph : (wstr (pagesLine p)
          (if Frac.blt ⟨-1, 1⟩ ctx.width && Frac.blt ⟨-1, 1⟩ ctx.height then
            wstr (mediaText ctx.width ctx.height) { e1 with pos := lineEnd ctx.d e1.pos }
          else { e1 with pos := lineEnd ctx.d e1.pos })).phdrs = e1.phdrs := by
        split <;> rfl
      have hout : (wstr (pagesLine p)
          (if Frac.blt ⟨-1, 1⟩ ctx.width && Frac.blt ⟨-1, 1⟩ ctx.height then
            wstr (mediaText ctx.width ctx.height) { e1 with pos := lineEnd ctx.d e1.pos }
          else { e1 with pos := lineEnd ctx.d e1.pos })).out =
          e1.out ++ ((if Frac.blt ⟨-1, 1⟩ ctx.width && Frac.blt ⟨-1, 1⟩ ctx.height then
            mediaText ctx.width ctx.height else []) ++ pagesLine p) := by
        split <;> simp [wstr]
      refine ⟨by rw [h1, hop, g1], by rw [h2, hph, g2],
        t1 ++ (if Frac.blt ⟨-1, 1⟩ ctx.width && Frac.blt ⟨-1, 1⟩ ctx.height then
          mediaText ctx.width ctx.height else []), t2, ?_⟩
      rw [h3, hout, g3]
      simp [List.append_assoc]
    · cases h

theorem writeheadermedia_proj {ctx : Ctx} {p : Nat} {igns : List Nat}
    {e e' : Em} (h : writeheadermedia ctx p igns e = some e') :
    e'.outputpage = e.outputpage ∧ e'.phdrs = e.phdrs ∧
      ∃ t, e'.out = e.out ++ t := by
  unfold writeheadermedia at h
  split at h
  · obtain ⟨h1, h2, a, b, h3⟩ := whmPages_proj h
    exact ⟨h1, h2, a ++ pagesLine p ++ b, by simpa [List.append_assoc] using h3⟩
  · obtain ⟨h1, h2, t, h3⟩ := fcopyE_proj h
    exact ⟨h1, h2, t, h3⟩

/-! ### Page-header accounting for `pstops` -/

/-- The number of `%%Page:` headers the inner loop writes for the remaining
specs, given the incoming `add_last`: one for each spec not preceded by an
`ADD_NEXT` spec. -/
def hc : List PageSpec → Bool → Nat
  | [], _ => 0
  | ps :: rest, al =>
    (if al then 0 else 1) + hc rest (decide (ps.flags &&& ADD_NEXT ≠ 0))

/-- A spec list forming one `ADD_NEXT` chain: every spec has `ADD_NEXT`
except the last (in particular the list is nonempty).  This is the shape the
psnup builder produces. -/
def IsChain (specs : List PageSpec) : Prop :=
  specs.map (fun ps => decide (ps.flags &&& ADD_NEXT ≠ 0)) =
    List.replicate (specs.length - 1) true ++ [false]

theorem IsChain.tail_shape {ps : PageSpec} {rest : List PageSpec}
    (h : IsChain (ps :: rest)) :
    (rest = [] ∧ decide (ps.flags &&& ADD_NEXT ≠ 0) = false) ∨
    (rest ≠ [] ∧ decide (ps.flags &&& ADD_NEXT ≠ 0) = true ∧ IsChain rest) := by
  cases rest with
  | nil =>
    left
    unfold IsChain at h
    simp at h
    simp [h]
  | cons r rs =>
    unfold IsChain at h
    simp only [List.map_cons, List.length_cons] at h
    have hr : rs.length + 1 + 1 - 1 = rs.length + 1 := rfl
    rw [hr, List.replicate_succ, List.cons_append] at h
    injection h with h1 h2
    right
    refine ⟨by simp, h1, ?_⟩
    unfold IsChain
    simp only [List.map_cons, List.length_cons]
    have hr2 : rs.length + 1 - 1 = rs.length := rfl
    rw [hr2]
    exact h2

theorem hc_true_of_chain : ∀ specs : List PageSpec, IsChain specs → hc specs true = 0 := by
  intro specs
  induction specs with
  | nil =>
    intro h
    unfold IsChain at h
    simp at h
  | cons ps rest ih =>
    intro h
    rcases h.tail_shape with ⟨hnil, hb⟩ | ⟨_, hb, hch⟩
    · subst hnil
      simp [hc, hb]
    · simp [hc, hb, ih hch]

theorem hc_false_of_chain : ∀ specs : List PageSpec, IsChain specs → hc specs false = 1 := by
  intro specs
  induction specs with
  | nil =>
    intro h
    unfold IsChain at h
    simp at h
  | cons ps rest ih =>
    intro h
    rcases h.tail_shape with ⟨hnil, hb⟩ | ⟨_, hb, hch⟩
    · subst hnil
      simp [hc, hb]
    · simp [hc, hb, hc_true_of_chain rest hch]

theorem specPre_proj (ctx : Ctx) (draw : Frac) (maxpage modulo thispg : Nat)
    (al : Bool) (ps : PageSpec) (rest : List PageSpec) (e1 : Em) :
    (specPre ctx draw maxpage modulo thispg al ps rest e1).outputpage =
      e1.outputpage + (if al then 0 else 1) ∧
    ∃ t, (specPre ctx draw maxpage modulo thispg al ps rest e1).out = e1.out ++ t := by
  unfold specPre
  cases al <;>
    by_cases hg : ps.flags &&& GSAVE ≠ 0 <;>
    by_cases ha : ps.flags &&& ADD_NEXT ≠ 0 <;>
    simp [hg, ha, wstr, writepageheader] <;>
    exact ⟨_, by simp [List.append_assoc]⟩

theorem specBody_proj {ctx : Ctx} {actualpg : Nat} {e5 e7 : Em}
    (h : specBody ctx actualpg e5 = some e7) :
    e7.outputpage = e5.outputpage ∧ ∃ t, e7.out = e5.out ++ t := by
  unfold specBody at h
  split at h
  · split at h
    · cases h
    · next e6 heq =>
      obtain ⟨h1, _, t1, h3⟩ := writepagesetup_proj heq
      obtain ⟨h4, _, t2, h6⟩ := fcopyE_proj h
      refine ⟨by rw [h4]; simp [wstr, h1], ?_⟩
      refine ⟨t1 ++ (strL "PStoPSxform concat\n" ++ t2), ?_⟩
      rw [h6]
      simp [wstr, h3, List.append_assoc]
  · cases h
    exact ⟨rfl, blankLine, rfl⟩

theorem specLoop_proj {ctx : Ctx} {draw : Frac} {maxpage modulo thispg : Nat} :
    ∀ {specs : List PageSpec} {al : Bool} {e e' : Em},
      specLoop ctx draw maxpage modulo thispg specs al e = some e' →
      e'.outputpage = e.outputpage + hc specs al ∧ ∃ t, e'.out = e.out ++ t := by
  intro specs
  induction specs with
  | nil =>
    intro al e e' h
    cases h
    exact ⟨by simp [hc], [], by simp⟩
  | cons ps rest ih =>
    intro al e e' h
    unfold specLoop at h
    split at h
    · cases h
    · next e1 heq =>
      have he1 : e1.outputpage = e.outputpage ∧ e1.out = e.out := by
        unfold maybeSeek at heq
        split at heq
        · obtain ⟨h1, _, h3⟩ := seekpage_proj heq
          exact ⟨h1, h3⟩
        · cases heq
          exact ⟨rfl, rfl⟩
      obtain ⟨ha1, ha2⟩ := he1
      split at h
      · cases h
      · next e7 heq7 =>
        obtain ⟨hb1, tb, hb2⟩ := specBody_proj heq7
        obtain ⟨hp1, tp, hp2⟩ := specPre_proj ctx draw maxpage modulo thispg al ps rest e1
        obtain ⟨hr1, tr, hr2⟩ := ih h
        constructor
        · rw [hr1]
          simp only [wstr]
          rw [hb1, hp1, ha1]
          simp only [hc]
          omega
        · refine ⟨tp ++ tb ++ strL "PStoPSsaved restore\n" ++ tr, ?_⟩
          rw [hr2]
          simp only [wstr]
          rw [hb2, hp2, ha2]
          simp [List.append_assoc]

theorem sheetLoop_proj {ctx : Ctx} {draw : Frac} {modulo maxpage : Nat}
    {specs : List PageSpec} :
    ∀ {k thispg : Nat} {e e' : Em},
      sheetLoop ctx draw modulo maxpage specs k thispg e = some e' →
      e'.outputpage = e.outputpage + k * hc specs false ∧ ∃ t, e'.out = e.out ++ t := by
  intro k
  induction k with
  | zero =>
    intro thispg e e' h
    cases h
    exact ⟨by simp, [], by simp⟩
  | succ k ih =>
    intro thispg e e' h
    unfold sheetLoop at h
    split at h
    · cases h
    · next e1 heq =>
      obtain ⟨h1, t1, h2⟩ := specLoop_proj heq
      obtain ⟨h3, t2, h4⟩ := ih h
      constructor
      · rw [h3, h1]
        ring
      · exact ⟨t1 ++ t2, by rw [h4, h2]; simp [List.append_assoc]⟩

theorem wheadermedia_pages_out {ctx : Ctx} {p : Nat} {igns : List Nat}
    {e e' : Em} (hcmt : ctx.pagescmt ≠ 0)
    (h : writeheadermedia ctx p igns e = some e') :
    e'.outputpage = e.outputpage ∧
      ∃ a b, e'.out = e.out ++ a ++ pagesLine p ++ b := by
  unfold writeheadermedia at h
  rw [if_pos hcmt] at h
  obtain ⟨h1, _, a, b, h3⟩ := whmPages_proj h
  exact ⟨h1, a, b, h3⟩

/-- C4: for every input with at least one page and every `modulo ≥ 1`, a
successful `pstops` run over one `ADD_NEXT` chain of `modulo` specs emits
exactly `⌈pages / modulo⌉` output page headers (`outputpage` counts them,
one per group, with trailing missing pages padded as blanks), and when a
`%%Pages:` header was recorded the rewritten line states
`(maxpage / modulo) * pps = ⌈pages / modulo⌉ * pps` pages. -/
theorem pstops_page_count (ctx : Ctx) (modulo pps : Nat) (nobind : Bool)
    (specs : List PageSpec) (draw : Frac) (igns : List Nat) (e : Em)
    (hm : 1 ≤ modulo) (hp : 1 ≤ ctx.pages) (hchain : IsChain specs)
    (hlen : specs.length = modulo)
    (hrun : pstops ctx modulo pps nobind specs draw igns = some e) :
    e.outputpage = (ctx.pages + modulo - 1) / modulo ∧
    (ctx.pagescmt ≠ 0 → ∃ pre post,
      e.out = pre ++ pagesLine (((ctx.pages + modulo - 1) / modulo) * pps) ++ post) := by
  unfold pstops at hrun
  dsimp only at hrun
  have hqd : ((ctx.pages + modulo - 1) / modulo) * modulo / modulo =
      (ctx.pages + modulo - 1) / modulo := Nat.mul_div_cancel _ (by omega)
  rw [hqd] at hrun
  split at hrun
  · cases hrun
  · next e1 heq1 =>
    split at hrun
    · cases hrun
    · next e3 heq3 =>
      split at hrun
      · cases hrun
      · next e4 heq4 =>
        split at hrun
        · cases hrun
        · next e5 heq5 =>
          cases hrun
          obtain ⟨hs1, ts, hs2⟩ := sheetLoop_proj heq5
          obtain ⟨hw1, _, tw, hw2⟩ := fcopyE_proj heq4
          obtain ⟨hpr1, _, tpr, hpr2⟩ := prologStep_proj heq3
          constructor
          · show e5.outputpage = _
            rw [hs1, hw1, hpr1]
            simp only [wstr]
            obtain ⟨hh1, _, _⟩ := writeheadermedia_proj heq1
            rw [hh1, hc_false_of_chain specs hchain]
            simp
          · intro hcmt
            obtain ⟨hh1, a, b, hh3⟩ := wheadermedia_pages_out hcmt heq1
            have htr : (writetrailer ctx e5).out =
                e5.out ++ ctx.d.drop (ctx.pageptr.getD ctx.pages 0) := rfl
            refine ⟨a, b ++ (procsetText nobind ++ (tpr ++ (tw ++ (ts ++
              ctx.d.drop (ctx.pageptr.getD ctx.pages 0))))), ?_⟩
            rw [htr, hs2, hw2, hpr2]
            simp only [wstr]
            rw [hh3]
            simp [List.append_assoc]

/-! ### Claim theorems: fcopy (C9), writeheadermedia (C10), the prolog step
(C1) and the dimension parser (C7) -/

theorem fcopyE_spec {ctx : Ctx} {upto : Nat} {igns : List Nat} (e : Em)
    (hlen : upto ≤ ctx.d.length) (hsort : igns.Pairwise (· ≤ ·))
    (h0 : ∀ o ∈ igns, o ≠ 0) :
    ∃ p', fcopyE ctx upto igns e = some
      { pos := p', out := e.out ++ copySpec ctx.d e.pos upto igns,
        bytes := e.bytes + (copySpec ctx.d e.pos upto igns).length,
        outputpage := e.outputpage, phdrs := e.phdrs } := by
  obtain ⟨p', hp'⟩ := fcopy_eq_copySpec ctx.d upto hlen igns hsort h0 e.pos
  refine ⟨p', ?_⟩
  unfold fcopyE
  rw [hp']

theorem fcopyE_fail {ctx : Ctx} {upto : Nat} {igns : List Nat} (e : Em)
    (hlen : ctx.d.length < upto) (hplen : e.pos ≤ ctx.d.length)
    (h0 : ∀ o ∈ igns, o ≠ 0) :
    fcopyE ctx upto igns e = none := by
  unfold fcopyE
  rw [fcopy_short ctx.d upto hlen igns h0 e.pos hplen]

/-- C9: from an input position `here ≤ upto` inside the input, with an
ascending, 0-terminated (modelled: 0-free) ignore list, `fcopy` writes
exactly the bytes of `[here, upto)` minus the whole lines beginning at the
ignore offsets lying in `[here, upto)`, adds the number of bytes written to
`bytes`, and fails exactly when the input is too short to reach `upto`
(the short-read case; short writes cannot occur in this model of the
output stream). -/
theorem fcopy_correct (ctx : Ctx) (upto : Nat) (igns : List Nat) (e : Em)
    (hpos : e.pos ≤ upto) (hplen : e.pos ≤ ctx.d.length)
    (hsort : igns.Pairwise (· ≤ ·)) (h0 : ∀ o ∈ igns, o ≠ 0) :
    (upto ≤ ctx.d.length →
      ∃ p', fcopyE ctx upto igns e = some
        { pos := p', out := e.out ++ copySpec ctx.d e.pos upto igns,
          bytes := e.bytes + (copySpec ctx.d e.pos upto igns).length,
          outputpage := e.outputpage, phdrs := e.phdrs }) ∧
    (ctx.d.length < upto → fcopyE ctx upto igns e = none) :=
  ⟨fun hlen => fcopyE_spec e hlen hsort h0,
   fun hlen => fcopyE_fail e hlen hplen h0⟩

def c9ctx : Ctx := ⟨strL "ab\ncd\nef\n", 0, [], 0, 0, 0, 0, 0, ⟨-1, 1⟩, ⟨-1, 1⟩⟩

def c9em : Em := ⟨0, [], 0, 0, []⟩

theorem fcopy_correct_witness :
    (c9em.pos ≤ 9 ∧ c9em.pos ≤ c9ctx.d.length ∧
      ([3] : List Nat).Pairwise (· ≤ ·) ∧ (∀ o ∈ ([3] : List Nat), o ≠ 0)) ∧
    ((9 ≤ c9ctx.d.length →
      ∃ p', fcopyE c9ctx 9 [3] c9em = some
        { pos := p', out := c9em.out ++ copySpec c9ctx.d c9em.pos 9 [3],
          bytes := c9em.bytes + (copySpec c9ctx.d c9em.pos 9 [3]).length,
          outputpage := c9em.outputpage, phdrs := c9em.phdrs }) ∧
     (c9ctx.d.length < 9 → fcopyE c9ctx 9 [3] c9em = none)) :=
  ⟨⟨by decide, by decide, by simp, by decide⟩,
    fcopy_correct c9ctx 9 [3] c9em (by decide) (by decide) (by simp) (by decide)⟩

/-- C10: when the scanner recorded no `%%Pages:` header
(`pagescmt == 0`), `writeheadermedia` writes no rewritten `%%Pages:`,
`%%DocumentMedia:` or `%%BoundingBox:` lines even when the output
dimensions are known: the appended output is exactly the original header
bytes up to `header_end` minus the ignore-list lines, and no page header is
produced. -/
theorem writeheadermedia_no_pagescmt (ctx : Ctx) (p : Nat) (igns : List Nat)
    (e : Em) (hcmt : ctx.pagescmt = 0) (hlen : ctx.headerpos ≤ ctx.d.length)
    (hsort : igns.Pairwise (· ≤ ·)) (h0 : ∀ o ∈ igns, o ≠ 0) :
    ∃ p', writeheadermedia ctx p igns e = some
      { pos := p', out := e.out ++ copySpec ctx.d 0 ctx.headerpos igns,
        bytes := e.bytes + (copySpec ctx.d 0 ctx.headerpos igns).length,
        outputpage := e.outputpage, phdrs := e.phdrs } := by
  unfold writeheadermedia
  rw [if_neg (by simp [hcmt])]
  have h := @fcopyE_spec ctx ctx.headerpos igns { e with pos := 0 } hlen hsort h0
  simpa using h

def c10ctx : Ctx :=
  ⟨strL "%!\nxx\n%%EndComments\nP\n", 1, [20], 0, 20, 20, 0, 0, ⟨595, 1⟩, ⟨842, 1⟩⟩

theorem writeheadermedia_no_pagescmt_witness :
    (c10ctx.pagescmt = 0 ∧ c10ctx.headerpos ≤ c10ctx.d.length ∧
      ([3] : List Nat).Pairwise (· ≤ ·) ∧ (∀ o ∈ ([3] : List Nat), o ≠ 0)) ∧
    ∃ p', writeheadermedia c10ctx 7 [3] c9em = some
      { pos := p', out := c9em.out ++ copySpec c10ctx.d 0 c10ctx.headerpos [3],
        bytes := c9em.bytes + (copySpec c10ctx.d 0 c10ctx.headerpos [3]).length,
        outputpage := c9em.outputpage, phdrs := c9em.phdrs } :=
  ⟨⟨by decide, by decide, by simp, by decide⟩,
    writeheadermedia_no_pagescmt c10ctx 7 [3] c9em (by decide) (by decide)
      (by simp) (by decide)⟩

theorem fcopyE_nil {ctx : Ctx} {upto : Nat} {e : Em} (hp : e.pos ≤ upto)
    (hl : upto ≤ ctx.d.length) :
    fcopyE ctx upto [] e = some
      { e with pos := upto,
               out := e.out ++ slice ctx.d e.pos upto,
               bytes := e.bytes + (slice ctx.d e.pos upto).length } := by
  unfold fcopyE fcopy fcopy0
  by_cases heq : upto ≤ e.pos
  · have hpe : e.pos = upto := by omega
    have hs : slice ctx.d e.pos upto = [] := by
      unfold slice
      have hz : upto - e.pos = 0 := by omega
      simp [hz]
    rw [if_pos heq]
    dsimp only
    rw [hs, hpe]
  · rw [if_neg heq, if_pos hl]

/-- C1 (amended): after the procset block, `pstops` runs `writepartprolog`
and emits the `PStoPSxform` composition line exactly when the input had
**no** pre-existing PStoPS procset (`writepartprolog` returns
`!beginprocset`).  With a procset present, the prolog is copied up to
`procset_begin`, the cursor seeks past `procset_end`, the copy continues to
`setup_end`, and the composition line is *not* emitted. -/
theorem prologStep_correct (ctx : Ctx) (e : Em)
    (hend : ctx.endsetup ≤ ctx.d.length)
    (h0 : ctx.beginprocset = 0 → e.pos ≤ ctx.endsetup ∧ ctx.endprocset = 0)
    (h1 : ctx.beginprocset ≠ 0 →
      e.pos ≤ ctx.beginprocset ∧ ctx.beginprocset ≤ ctx.d.length ∧
      ctx.endprocset ≠ 0 ∧ ctx.endprocset ≤ ctx.endsetup) :
    (ctx.beginprocset = 0 →
      prologStep ctx e = some
        { pos := ctx.endsetup,
          out := e.out ++ slice ctx.d e.pos ctx.endsetup ++ xformLine,
          bytes := e.bytes + (slice ctx.d e.pos ctx.endsetup).length +
            xformLine.length,
          outputpage := e.outputpage, phdrs := e.phdrs }) ∧
    (ctx.beginprocset ≠ 0 →
      prologStep ctx e = some
        { pos := ctx.endsetup,
          out := e.out ++ slice ctx.d e.pos ctx.beginprocset ++
            slice ctx.d ctx.endprocset ctx.endsetup,
          bytes := e.bytes + (slice ctx.d e.pos ctx.beginprocset).length +
            (slice ctx.d ctx.endprocset ctx.endsetup).length,
          outputpage := e.outputpage, phdrs := e.phdrs }) := by
  constructor
  · intro hb
    obtain ⟨hpe, hep⟩ := h0 hb
    unfold prologStep writepartprolog writeprolog
    rw [if_neg (by simp [hb])]
    dsimp only
    rw [if_neg (by simp [hep])]
    rw [fcopyE_nil hpe hend]
    dsimp only
    rw [if_pos (by simp [hb])]
    simp [wstr, List.append_assoc]
  · intro hb
    obtain ⟨hq1, hq2, hq3, hq4⟩ := h1 hb
    unfold prologStep writepartprolog writeprolog
    rw [if_pos hb]
    rw [fcopyE_nil hq1 hq2]
    dsimp only
    rw [if_pos hq3]
    rw [fcopyE_nil (show ctx.endprocset ≤ ctx.endsetup from hq4) hend]
    dsimp only
    rw [if_neg (by simp [hb])]

/-- C7 is a code bug: `parsedouble` only fails when *no* character is
consumed, but `-` and `.` are consumed like digits, so the argument `"-"`
(no digits at all) is accepted by `singledimen` with value 0 instead of
raising the argument error the spec requires. -/
theorem singledimen_accepts_no_digit :
    singledimen ⟨-1, 1⟩ ⟨-1, 1⟩ (strL "-") = some ⟨0, 1⟩ ∧
    (strL "-").all (fun c => !c.isDigit) = true := by
  constructor
  · decide
  · decide

def c1actx : Ctx := ⟨strL "AB\n", 0, [], 0, 0, 3, 0, 0, ⟨-1, 1⟩, ⟨-1, 1⟩⟩

/-- C1 (counterexample to the claim as stated): on an input with **no**
pre-existing PStoPS procset (`procset_begin = 0`), the emitter *does* emit
the `PStoPSxform` composition line after copying the prolog — the claim
asserts it is only emitted when a procset exists. -/
theorem prologStep_emits_without_procset :
    prologStep c1actx c9em =
      some ⟨3, strL "AB\n" ++ xformLine, 3 + xformLine.length, 0, []⟩ ∧
    c1actx.beginprocset = 0 ∧
    xformLine <:+: (strL "AB\n" ++ xformLine) := by
  refine ⟨by decide, by decide, by decide⟩

def c1bctx : Ctx := ⟨strL "AB\nPROC\nCD\n", 0, [], 0, 0, 11, 3, 8, ⟨-1, 1⟩, ⟨-1, 1⟩⟩

theorem prologStep_correct_witness :
    (c1bctx.endsetup ≤ c1bctx.d.length ∧ c1bctx.beginprocset ≠ 0) ∧
    prologStep c1bctx c9em = some
      { pos := c1bctx.endsetup,
        out := c9em.out ++ slice c1bctx.d c9em.pos c1bctx.beginprocset ++
          slice c1bctx.d c1bctx.endprocset c1bctx.endsetup,
        bytes := c9em.bytes + (slice c1bctx.d c9em.pos c1bctx.beginprocset).length +
          (slice c1bctx.d c1bctx.endprocset c1bctx.endsetup).length,
        outputpage := c9em.outputpage, phdrs := c9em.phdrs } :=
  ⟨⟨by decide, by decide⟩,
    (prologStep_correct c1bctx c9em (by decide) (by decide) (by decide)).2 (by decide)⟩

def c6ctx : Ctx := ⟨[], 0, [], 0, 0, 0, 0, 0, ⟨-1, 1⟩, ⟨-1, 1⟩⟩

def c6spec : PageSpec := ⟨0, 0, 0, ⟨1, 1⟩, ⟨0, 1⟩, ⟨0, 1⟩⟩

set_option maxRecDepth 4000 in
/-- C6 evaluated at a failing input (a padded blank page, `actualpg ≥
pages`): the emitter writes the spliced literal
`PStoPSxform concatshowpage\n` — with **no** newline between `concat` and
`showpage`, because the C string's backslash-newline is a line splice —
immediately before the closing `PStoPSsaved restore` line, not the
`PStoPSxform concat\nshowpage\n` the spec requires. -/
theorem specLoop_blank_splice :
    specLoop c6ctx ⟨0, 1⟩ 2 2 0 [c6spec] true c9em =
      some ⟨0, strL "userdict/PStoPSsaved save put\nPStoPSxform concatshowpage\nPStoPSsaved restore\n",
        77, 0, []⟩ ∧
    (strL "PStoPSxform concatshowpage\nPStoPSsaved restore\n" <:+:
      strL "userdict/PStoPSsaved save put\nPStoPSxform concatshowpage\nPStoPSsaved restore\n") ∧
    ¬ (strL "PStoPSxform concat\nshowpage\n" <:+:
      strL "userdict/PStoPSsaved save put\nPStoPSxform concatshowpage\nPStoPSsaved restore\n") := by
  refine ⟨by decide, by decide, by decide⟩

/-- C2: every spec built by the N-up spec builder has the `SCALE`, `OFFSET`
and `GSAVE` flags set (so the emitter's transformation block fires),
`ADD_NEXT` is set on every spec but the last, and `ROTATE` is set iff the
chosen layout is rotated. -/
theorem buildSpecs_flags (cfg : NupCfg) (nup i : Nat)
    (h : i < (buildSpecs cfg nup).length) :
    ((buildSpecs cfg nup).get ⟨i, h⟩).flags &&& SCALE ≠ 0 ∧
    ((buildSpecs cfg nup).get ⟨i, h⟩).flags &&& OFFSET ≠ 0 ∧
    ((buildSpecs cfg nup).get ⟨i, h⟩).flags &&& GSAVE ≠ 0 ∧
    (((buildSpecs cfg nup).get ⟨i, h⟩).flags &&& ADD_NEXT ≠ 0 ↔ i + 1 < nup) ∧
    (((buildSpecs cfg nup).get ⟨i, h⟩).flags &&& ROTATE ≠ 0 ↔ cfg.rotate = true) := by
  have hg : (buildSpecs cfg nup).get ⟨i, h⟩ = buildSpec cfg nup i := by
    simp [buildSpecs]
  rw [hg]
  unfold buildSpec newspec
  cases hr : cfg.rotate <;> by_cases hi : i + 1 < nup <;>
    simp [hr, hi, ADD_NEXT, ROTATE, SCALE, OFFSET, GSAVE, HFLIP, VFLIP] <;>
    decide

def cfgW : NupCfg :=
  ⟨false, true, true, false, 2, 1, 0, 0, ⟨595, 1⟩, ⟨842, 1⟩, 0, 0, ⟨1, 2⟩, 0⟩

def cfgW4 : NupCfg :=
  ⟨true, false, true, true, 2, 2, 0, 0, ⟨595, 1⟩, ⟨842, 1⟩, 0, 0, ⟨1, 2⟩, 0⟩

theorem buildSpecs_flags_witness :
    (0 < (buildSpecs cfgW 2).length) ∧
    (((buildSpecs cfgW 2).get ⟨0, by decide⟩).flags &&& SCALE ≠ 0 ∧
     ((buildSpecs cfgW 2).get ⟨0, by decide⟩).flags &&& OFFSET ≠ 0 ∧
     ((buildSpecs cfgW 2).get ⟨0, by decide⟩).flags &&& GSAVE ≠ 0 ∧
     (((buildSpecs cfgW 2).get ⟨0, by decide⟩).flags &&& ADD_NEXT ≠ 0 ↔ 0 + 1 < 2) ∧
     (((buildSpecs cfgW 2).get ⟨0, by decide⟩).flags &&& ROTATE ≠ 0 ↔ cfgW.rotate = true)) :=
  ⟨by decide, buildSpecs_flags cfgW 2 0 (by decide)⟩

theorem refl_cancel {b : Bool} {h x y : Nat} (hx : x < h) (hy : y < h)
    (he : (if b then x else h - 1 - x) = (if b then y else h - 1 - y)) : x = y := by
  cases b <;> simp at he <;> omega

theorem refl_cancel' {b : Bool} {v x y : Nat} (hx : x < v) (hy : y < v)
    (he : (if b then v - 1 - x else x) = (if b then v - 1 - y else y)) : x = y := by
  cases b <;> simp at he <;> omega

theorem refl_mem {b : Bool} {h x : Nat} (hh : 0 < h) (hx : x < h) :
    (if b then x else h - 1 - x) < h := by
  cases b <;> simp <;> omega

theorem refl_mem' {b : Bool} {v x : Nat} (hv : 0 < v) (hx : x < v) :
    (if b then v - 1 - x else x) < v := by
  cases b <;> simp <;> omega

/-- C5: for every `nup ≥ 1` and grid with `horiz * vert = nup`, under any
traversal flags, the builder produces exactly `nup` specs, and the cell map
`p ↦ (across, up)` is injective on `{0, …, nup-1}` with image exactly
`{0, …, horiz-1} × {0, …, vert-1}`: every cell is covered exactly once. -/
theorem buildSpecs_cell_bijection (cfg : NupCfg) (nup : Nat)
    (hn : nup = cfg.horiz * cfg.vert) (h1 : 1 ≤ nup) :
    (buildSpecs cfg nup).length = nup ∧
    Set.InjOn (cellOf cfg.column cfg.leftright cfg.topbottom cfg.horiz cfg.vert)
      { p | p < nup } ∧
    (Finset.range nup).image
        (cellOf cfg.column cfg.leftright cfg.topbottom cfg.horiz cfg.vert) =
      Finset.range cfg.horiz ×ˢ Finset.range cfg.vert := by
  have hh : 0 < cfg.horiz := by
    rcases Nat.eq_zero_or_pos cfg.horiz with h0 | h0
    · rw [h0] at hn
      simp at hn
      omega
    · exact h0
  have hv : 0 < cfg.vert := by
    rcases Nat.eq_zero_or_pos cfg.vert with h0 | h0
    · rw [h0] at hn
      simp at hn
      omega
    · exact h0
  have hinj : Set.InjOn
      (cellOf cfg.column cfg.leftright cfg.topbottom cfg.horiz cfg.vert)
      { p | p < nup } := by
    intro p hp q hq he
    simp only [Set.mem_setOf_eq] at hp hq
    have hp' : p < cfg.horiz * cfg.vert := hn ▸ hp
    have hq' : q < cfg.horiz * cfg.vert := hn ▸ hq
    unfold cellOf at he
    cases hcol : cfg.column with
    | true =>
      rw [hcol] at he
      rw [if_pos rfl, if_pos rfl] at he
      rw [Prod.mk.injEq] at he
      obtain ⟨hA, hB⟩ := he
      have hpd : p / cfg.vert < cfg.horiz :=
        (Nat.div_lt_iff_lt_mul hv).mpr (by omega)
      have hqd : q / cfg.vert < cfg.horiz :=
        (Nat.div_lt_iff_lt_mul hv).mpr (by omega)
      have hdiv : p / cfg.vert = q / cfg.vert := refl_cancel hpd hqd hA
      have hmod : p % cfg.vert = q % cfg.vert :=
        refl_cancel' (Nat.mod_lt p hv) (Nat.mod_lt q hv) hB
      calc p = cfg.vert * (p / cfg.vert) + p % cfg.vert :=
          (Nat.div_add_mod p cfg.vert).symm
        _ = cfg.vert * (q / cfg.vert) + q % cfg.vert := by rw [hdiv, hmod]
        _ = q := Nat.div_add_mod q cfg.vert
    | false =>
      rw [hcol] at he
      rw [if_neg Bool.false_ne_true, if_neg Bool.false_ne_true] at he
      rw [Prod.mk.injEq] at he
      obtain ⟨hA, hB⟩ := he
      have hpd : p / cfg.horiz < cfg.vert :=
        (Nat.div_lt_iff_lt_mul hh).mpr (by rw [Nat.mul_comm]; omega)
      have hqd : q / cfg.horiz < cfg.vert :=
        (Nat.div_lt_iff_lt_mul hh).mpr (by rw [Nat.mul_comm]; omega)
      have hmod : p % cfg.horiz = q % cfg.horiz :=
        refl_cancel (Nat.mod_lt p hh) (Nat.mod_lt q hh) hA
      have hdiv : p / cfg.horiz = q / cfg.horiz := refl_cancel' hpd hqd hB
      calc p = cfg.horiz * (p / cfg.horiz) + p % cfg.horiz :=
          (Nat.div_add_mod p cfg.horiz).symm
        _ = cfg.horiz * (q / cfg.horiz) + q % cfg.horiz := by rw [hdiv, hmod]
        _ = q := Nat.div_add_mod q cfg.horiz
  refine ⟨by simp [buildSpecs], hinj, ?_⟩
  have hsub : (Finset.range nup).image
      (cellOf cfg.column cfg.leftright cfg.topbottom cfg.horiz cfg.vert) ⊆
      Finset.range cfg.horiz ×ˢ Finset.range cfg.vert := by
    intro c hcmem
    rw [Finset.mem_image] at hcmem
    obtain ⟨p, hpmem, hpc⟩ := hcmem
    rw [Finset.mem_range] at hpmem
    have hp' : p < cfg.horiz * cfg.vert := hn ▸ hpmem
    rw [Finset.mem_product, Finset.mem_range, Finset.mem_range]
    subst hpc
    unfold cellOf
    cases hcol : cfg.column with
    | true =>
      rw [if_pos rfl]
      exact ⟨refl_mem hh ((Nat.div_lt_iff_lt_mul hv).mpr (by omega)),
        refl_mem' hv (Nat.mod_lt p hv)⟩
    | false =>
      rw [if_neg (by simp)]
      exact ⟨refl_mem hh (Nat.mod_lt p hh),
        refl_mem' hv ((Nat.div_lt_iff_lt_mul hh).mpr (by rw [Nat.mul_comm]; omega))⟩
  apply Finset.eq_of_subset_of_card_le hsub
  have hcard : ((Finset.range nup).image
      (cellOf cfg.column cfg.leftright cfg.topbottom cfg.horiz cfg.vert)).card =
      nup := by
    rw [Finset.card_image_of_injOn, Finset.card_range]
    intro p hp q hq he
    apply hinj
    · simpa using hp
    · simpa using hq
    · exact he
  rw [hcard, Finset.card_product, Finset.card_range, Finset.card_range]
  omega

theorem buildSpecs_cell_bijection_witness :
    ((4 : Nat) = cfgW4.horiz * cfgW4.vert ∧ 1 ≤ (4 : Nat)) ∧
    ((buildSpecs cfgW4 4).length = 4 ∧
     Set.InjOn (cellOf cfgW4.column cfgW4.leftright cfgW4.topbottom
       cfgW4.horiz cfgW4.vert) { p | p < 4 } ∧
     (Finset.range 4).image (cellOf cfgW4.column cfgW4.leftright
       cfgW4.topbottom cfgW4.horiz cfgW4.vert) =
       Finset.range cfgW4.horiz ×ˢ Finset.range cfgW4.vert) :=
  ⟨⟨by decide, by decide⟩, buildSpecs_cell_bijection cfgW4 4 (by decide) (by decide)⟩

/-! ### C3: psnup -2 on a 4-page A4 document -/

/-- A 4-page A4 conforming document, one body line per page. -/
def docA4 : List Char := strL ("%!PS-Adobe-2.0\n%%Pages: 4\n%%EndComments\n" ++
  "%%EndSetup\n%%Page: 1 1\na\n%%Page: 2 2\nb\n%%Page: 3 3\nc\n" ++
  "%%Page: 4 4\nd\n%%Trailer\n%%EOF\n")

/-- `psnup -2 -pa4` with all defaults (A4 in and out, zero margin and
border, default orientation flags, default tolerance 100000, no flip,
no user scale, no draw) on `docA4`. -/
def runA4 : Option PsnupOut :=
  psnupRun 2 ⟨595, 1⟩ ⟨842, 1⟩ ⟨0, 1⟩ ⟨0, 1⟩ ⟨100000, 1⟩ ⟨0, 1⟩ ⟨0, 1⟩
    false true true false docA4

set_option maxRecDepth 8000 in
/-- C3, counterexample part: for `psnup -2 -pa4` on a 4-page A4 document the
layout record does NOT carry `horiz = 2, vert = 1` as the claim states: the
rotated accept in psnup.c stores the swapped pair, `horiz = 1, vert = 2`
(with `rotate = true`). -/
theorem psnup2up_layout_not_as_claimed :
    runA4.map (fun r => (r.layout.horiz, r.layout.vert)) = some (1, 2) ∧
    runA4.map (fun r => decide (r.layout.horiz = 2 ∧ r.layout.vert = 1)) =
      some false :=
  ⟨by decide, by decide⟩

set_option maxRecDepth 8000 in
/-- C3, amended: for `psnup -2 -pa4` on a 4-page A4 document the optimizer
accepts the divisor pair hor = 2, ver = 1 in the rotated orientation and
stores it swapped as `horiz = 1, vert = 2, rotate = true`; both page specs
carry `rotate = 90` with the ROTATE flag set; and the run emits exactly two
output pages whose `%%Page:` headers carry the composite labels `(0,1)` and
`(2,3)` in that order. -/
theorem psnup2up_a4_layout :
    runA4.map (fun r => (r.layout.horiz, r.layout.vert, r.layout.rotate)) =
      some (1, 2, true) ∧
    runA4.map (fun r => r.specs.map
        (fun s => (s.rotate, decide (s.flags &&& ROTATE ≠ 0)))) =
      some [(90, true), (90, true)] ∧
    runA4.map (fun r => r.em.phdrs) =
      some [strL "%%Page: (0,1) 1\n", strL "%%Page: (2,3) 2\n"] ∧
    runA4.map (fun r => r.em.outputpage) = some 2 :=
  ⟨by decide, by decide, by decide, by decide⟩

/-! ### C4 witness: a concrete pstops run -/

/-- A scanned one-page document for exercising `pstops` with modulo 2. -/
def ctxW : Ctx :=
  ⟨strL "%!\n%%Pages: 1\n%%Page: 0 1\nB\n%%EOF\n", 1, [14, 28], 3, 14, 14,
    0, 0, ⟨-1, 1⟩, ⟨-1, 1⟩⟩

/-- A chained two-spec list (`2:0(…)+1(…)` shape): the first spec carries
ADD_NEXT, the second does not. -/
def specsW : List PageSpec :=
  [⟨0, 1, 0, ⟨1, 1⟩, ⟨0, 1⟩, ⟨0, 1⟩⟩, ⟨1, 0, 0, ⟨1, 1⟩, ⟨0, 1⟩, ⟨0, 1⟩⟩]

/-- The emitter state produced by the concrete `pstops` run. -/
def emW : Em := (pstops ctxW 2 1 false specsW ⟨0, 1⟩ []).getD ⟨0, [], 0, 0, []⟩

theorem isSome_eq_some_getD {α : Type} (o : Option α) (d : α)
    (h : o.isSome = true) : o = some (o.getD d) := by
  cases o with
  | none => cases h
  | some v => rfl

set_option maxRecDepth 8000 in
theorem pstops_page_count_witness :
    emW.outputpage = (ctxW.pages + 2 - 1) / 2 ∧
    (ctxW.pagescmt ≠ 0 → ∃ pre post,
      emW.out = pre ++ pagesLine (((ctxW.pages + 2 - 1) / 2) * 1) ++ post) :=
  pstops_page_count ctxW 2 1 false specsW ⟨0, 1⟩ [] emW
    (by decide) (by decide) (by unfold IsChain; decide) (by decide)
    (isSome_eq_some_getD _ _ (by decide))

end PSUtils
